import Mathlib

/-!
Verification development for the servemux HTTP request multiplexer
(pattern parser, radix tree builder, backtracking matcher, dispatcher).

The Go source works on byte strings; we model them as `List Nat`
(each element a byte value 0..255).  Node child tables, the insert
routine, the iterative backtracking matcher and the dispatcher are
translated from the source; every place where the Go code could panic
at runtime (slice index out of range, nil dereference) is modelled by
an explicit `panicked` outcome.
-/

set_option autoImplicit false
set_option linter.unusedVariables false

namespace Servemux

/-- Byte strings, as in the Go source (`string` is a byte sequence). -/
abbrev Str := List Nat

/-- Decidable equality for Except results. -/
instance exceptDecEq {ε α : Type} [DecidableEq ε] [DecidableEq α] :
    DecidableEq (Except ε α) := fun a b =>
  match a, b with
  | .ok x, .ok y =>
      if h : x = y then .isTrue (by rw [h]) else .isFalse (by simp [h])
  | .error x, .error y =>
      if h : x = y then .isTrue (by rw [h]) else .isFalse (by simp [h])
  | .ok _, .error _ => .isFalse (by simp)
  | .error _, .ok _ => .isFalse (by simp)

/-- Bytes of an ASCII Lean string (used only to write concrete inputs). -/
def bytesOf (s : String) : Str := s.data.map Char.toNat

/-- Handler values.  `user` stands for a caller-supplied handler
(identified by a number), `tsr` for the internally generated
trailing-slash-redirect closure, `redirect` for the canonicalization
redirect produced by `Handler`, and the last two for the internally
synthesized failure handlers. -/
inductive HandlerV where
  | user (id : Nat)
  | tsr
  | redirect (url : Str)
  | notFound
  | methodNotAllowed
  deriving DecidableEq, Repr

/-- handlerTuple from the source: method, path-variable names, the
original pattern string and the handler reference. -/
structure HandlerTuple where
  method : Str
  pathVarNames : List Str
  pattern : Str
  handler : HandlerV
  deriving DecidableEq, Repr

/-- serveMuxNodeType from the source. -/
inductive NType where
  | nonvar
  | unmodifiedVar
  | ellipsisModifiedVar
  deriving DecidableEq, Repr

/-- Numeric value of a node type (the source declares them as iota 0,1,2). -/
def NType.toNat : NType → Nat
  | .nonvar => 0
  | .unmodifiedVar => 1
  | .ellipsisModifiedVar => 2

/-- The source computes `cn.typ + 1` when the type is below the wildcard
type and wraps to the static type otherwise. -/
def NType.next : NType → NType
  | .nonvar => .unmodifiedVar
  | .unmodifiedVar => .ellipsisModifiedVar
  | .ellipsisModifiedVar => .nonvar

/-- serveMuxNode from the source.  Children and the parent are arena
indices into the owning tree's node list.  `key` is a ghost field: the
full path (from the tree root) that leads to this node; the Go code
does not store it, and no executable branch below reads it, but it lets
invariants about a node's position be stated without walking parent
links. -/
structure Node where
  pfx : Str
  label : Nat
  typ : NType
  parent : Option Nat
  nonvarChildren : List (Option Nat)
  unmodifiedVarChild : Option Nat
  ellipsisModifiedVarChild : Option Nat
  hasAtLeastOneChild : Bool
  handlerTuples : List (Str × HandlerTuple)
  catchAllHandlerTuple : Option HandlerTuple
  hasAtLeastOneHandler : Bool
  key : Str
  deriving DecidableEq, Repr

/-- A fresh node table exactly as the source allocates it:
`make([]*serveMuxNode, 255)` — 255 slots, not 256. -/
def freshChildren : List (Option Nat) := List.replicate 255 none

/-- The root node of a fresh tree: `&serveMuxNode{nonvarChildren: make([]*serveMuxNode, 255)}`. -/
def rootNode : Node :=
  { pfx := [], label := 0, typ := .nonvar, parent := none,
    nonvarChildren := freshChildren, unmodifiedVarChild := none,
    ellipsisModifiedVarChild := none, hasAtLeastOneChild := false,
    handlerTuples := [], catchAllHandlerTuple := none,
    hasAtLeastOneHandler := false, key := [] }

/-- A radix tree: an arena of nodes, the root at index 0. -/
structure Tree where
  nodes : List Node
  deriving DecidableEq, Repr

/-- Association-list lookup (Go map read; a missing key reads as nil). -/
def alookup {α : Type} [DecidableEq α] {β : Type} : List (α × β) → α → Option β
  | [], _ => none
  | (k, v) :: rest, k' => if k = k' then some v else alookup rest k'

/-- Association-list write (Go map assignment; replaces an existing key). -/
def aset {α : Type} [DecidableEq α] {β : Type} : List (α × β) → α → β → List (α × β)
  | [], k, v => [(k, v)]
  | (k0, v0) :: rest, k, v =>
      if k0 = k then (k, v) :: rest else (k0, v0) :: aset rest k v

/-- handlerTupleByMethod from the source: an exact method entry wins,
otherwise the catch-all entry (nil when both are absent). -/
def Node.handlerTupleByMethod (n : Node) (method : Str) : Option HandlerTuple :=
  match alookup n.handlerTuples method with
  | some ht => some ht
  | none => n.catchAllHandlerTuple

/-- The byte value of a slash. -/
def slashB : Nat := 47

/-- The byte value of an opening brace. -/
def obr : Nat := 123

/-- The byte value of a closing brace. -/
def cbr : Nat := 125

/-- The normalized single-segment variable marker. -/
def varMarker : Str := [obr, cbr]

/-- The normalized trailing wildcard marker (an opening brace, three
dots, a closing brace). -/
def wildMarker : Str := [obr, 46, 46, 46, cbr]

/-- setHandlerTuple from the source.  A `_tsr` entry never overwrites a
node that already has a handler; a non-`_tsr` registration evicts a
`_tsr` catch-all. -/
def Node.setHandlerTuple (n : Node) (ht : HandlerTuple) : Node :=
  let tsrStr : Str := bytesOf "_tsr"
  if ht.method = tsrStr && n.hasAtLeastOneHandler then n
  else
    let n1 :=
      if ht.method = [] || ht.method = tsrStr then
        { n with catchAllHandlerTuple := some ht }
      else
        { n with handlerTuples := aset n.handlerTuples ht.method ht }
    let catchAllIsTsr : Bool :=
      match n1.catchAllHandlerTuple with
      | some c => c.method = tsrStr
      | none => false
    let n2 :=
      if ht.method ≠ tsrStr && n1.handlerTuples.length > 0 && catchAllIsTsr then
        { n1 with catchAllHandlerTuple := none }
      else n1
    { n2 with hasAtLeastOneHandler :=
        !n2.handlerTuples.isEmpty || n2.catchAllHandlerTuple.isSome }

/-- Elements passed by walkPath from the source: for each path element,
the slashes passed since the previous element, the element itself, and
its byte index in the path.  Fuelled structurally so that it reduces;
one unit of fuel per input byte suffices. -/
def walkTriples : Nat → Str → Nat → Str → List (Str × Str × Nat)
  | 0, _, _, _ => []
  | _ + 1, [], _, _ => []
  | fuel + 1, b :: rest, i, rps =>
      if b = slashB then walkTriples fuel rest (i + 1) (rps ++ [slashB])
      else
        let elem := (b :: rest).takeWhile (· ≠ slashB)
        let rest2 := (b :: rest).dropWhile (· ≠ slashB)
        -- after reporting the element the loop increment steps past the
        -- terminating slash (when any input remains) and the passed-slash
        -- accumulator restarts at a single slash
        (rps, elem, i) :: walkTriples fuel (rest2.drop 1) (i + elem.length + 1) [slashB]

/-- All elements of a path, with their passed-slash prefixes and indices. -/
def pathElems (p : Str) : List (Str × Str × Nat) := walkTriples (p.length + 1) p 0 []

/-- ASCII alphanumeric byte (the method regexp 0-9A-Za-z from the source). -/
def isAlnumB (b : Nat) : Bool :=
  (48 ≤ b && b ≤ 57) || (65 ≤ b && b ≤ 90) || (97 ≤ b && b ≤ 122)

/-- ASCII letter byte. -/
def isLetterB (b : Nat) : Bool := (65 ≤ b && b ≤ 90) || (97 ≤ b && b ≤ 122)

/-- ASCII digit byte. -/
def isDigitB (b : Nat) : Bool := 48 ≤ b && b ≤ 57

/-- The method regexp from the source: one or more alphanumerics. -/
def methodOK (m : Str) : Bool := !m.isEmpty && m.all isAlnumB

/-- The variable-name regexp from the source, restricted to ASCII
(underscore or letter, then underscores, letters and digits; the Go
regexp uses the Unicode classes, of which this is the ASCII part —
adequate for all byte-level inputs considered below). -/
def identOK (s : Str) : Bool :=
  match s with
  | [] => false
  | c :: rest => (c = 95 || isLetterB c) && rest.all (fun b => b = 95 || isLetterB b || isDigitB b)

/-- Host validation boundary.  Modelled from the spec: the source
delegates to an external collaborator (a URL parser) and accepts the
host when it round-trips as the authority component; we model that as
a character-class check that accepts ordinary registered names, which
is what every input below uses. -/
def validHost (h : Str) : Bool :=
  h.all (fun b => isAlnumB b || b = 46 || b = 45 || b = 58)

/-- Registration-time faults (the source panics with a message; the
conflict fault names the new and the previously registered pattern). -/
inductive PErr where
  | syn (msg : String)
  | conflict (pat old : Str)
  deriving DecidableEq, Repr

/-- Result of parsing a pattern. -/
structure ParsedPattern where
  method : Str
  host : Str
  path : Str
  pathVarNames : List Str
  deriving DecidableEq, Repr

/-- strings.Cut at the first space byte. -/
def cutSpace (p : Str) : Option (Str × Str) :=
  match p.findIdx? (· = 32) with
  | some i => some (p.take i, p.drop (i + 1))
  | none => none

/-- The element-normalization walk of parsePattern: builds the denamed
path and the variable-name list, stopping early on a dollar-modified
element, failing on any grammar violation.  The first argument is the
length of the (already slash-expanded) path, used for the
is-not-last-element tests. -/
def normWalk (fullLen : Nat) : List (Str × Str × Nat) → Str → List Str →
    Except PErr (Str × List Str)
  | [], den, names => .ok (den, names)
  | (rps, elem, idx) :: rest, den, names =>
    let den := den ++ rps
    let fc := elem.headD 0
    let lc := elem.getLastD 0
    if fc ≠ obr ∧ lc ≠ cbr then
      normWalk fullLen rest (den ++ elem) names
    else if ¬ (fc = obr ∧ lc = cbr) then
      .error (.syn "each path element in a pattern path must either be a variable or not")
    else
      let inner := (elem.drop 1).dropLast
      let cut :=
        match inner.findIdx? (fun c => c = 46 || c = 36) with
        | some i => (inner.take i, inner.drop i)
        | none => (inner, ([] : Str))
      let varName := cut.1
      let varModifier := cut.2
      if varName ≠ [] ∧ ¬ identOK varName then
        .error (.syn "the name of a variable path element in a pattern path must be either empty or a Go identifier")
      else if varName ≠ [] ∧ varName ∈ names then
        .error (.syn "all variable path elements within the same pattern path must have unique names")
      else
        let names := names ++ [varName]
        let isNotLastElem := idx + elem.length < fullLen
        if varModifier = [] then
          normWalk fullLen rest (den ++ varMarker) names
        else if varModifier = [46, 46, 46] then
          if isNotLastElem then
            .error (.syn "a ...-modified variable can only be the last path element in a pattern path")
          else normWalk fullLen rest (den ++ wildMarker) names
        else if varModifier = [36] then
          if isNotLastElem then
            .error (.syn "a dollar-modified variable can only be the last path element in a pattern path")
          else if varName ≠ [] then
            .error (.syn "a dollar-modified variable path element in a pattern path must have no name")
          else .ok (den, names.dropLast)
        else .error (.syn "the modifier of a variable path element in a pattern path can only be ... or dollar")

/-- The host/path stage of parsePattern: fails when the host-path part
is empty, splits the host from the path at the first slash, validates
the host, expands a trailing slash to a trailing wildcard and
normalizes the path. -/
def parseHostPath (method hostpath : Str) : Except PErr ParsedPattern :=
  if hostpath = [] then
    .error (.syn "a pattern must have at least one of the host or path")
  else
    let hp :=
      match hostpath.findIdx? (· = slashB) with
      | some i => (hostpath.take i, hostpath.drop i)
      | none => (hostpath, ([] : Str))
    let host := hp.1
    let path0 := hp.2
    if host ≠ [] ∧ ¬ validHost host then
      .error (.syn "a pattern host must be able to be parsed as a URL authority")
    else if path0 = [] then
      .ok { method := method, host := host, path := [], pathVarNames := [] }
    else
      let path1 := if path0.getLastD 0 = slashB then path0 ++ wildMarker else path0
      match normWalk path1.length (pathElems path1) [] [] with
      | .error e => .error e
      | .ok (den, names) =>
          .ok { method := method, host := host, path := den, pathVarNames := names }

/-- parsePattern from the source, up to (but excluding) the
registered-pattern conflict check: splits off the method, validates
it, and runs the host/path stage. -/
def parsePatternCore (pattern : Str) : Except PErr ParsedPattern :=
  let mh :=
    match cutSpace pattern with
    | some (m, hp) => (m, hp)
    | none => (([] : Str), pattern)
  if mh.1 ≠ [] ∧ ¬ methodOK mh.1 then
    .error (.syn "a pattern method must be either empty or alphanumeric")
  else parseHostPath mh.1 mh.2

/-- parsePattern from the source including the conflict check against
the registered-pattern set; on success the normalized key is inserted. -/
def parsePattern (registered : List (Str × Str)) (pattern : Str) :
    Except PErr (ParsedPattern × List (Str × Str)) := do
  let pp ← parsePatternCore pattern
  let cleaned := pp.method ++ [32] ++ pp.host ++ pp.path
  match alookup registered cleaned with
  | some old => .error (.conflict pattern old)
  | none => .ok (pp, aset registered cleaned pattern)

/-- Length of the longest common byte run of two strings. -/
def lcpLen : Str → Str → Nat
  | a :: as, b :: bs => if a = b then lcpLen as bs + 1 else 0
  | _, _ => 0

/-- Read an arena node (nil dereference modelled as none). -/
def getNode (nodes : List Node) (i : Nat) : Option Node := nodes.get? i

/-- Replace an arena node. -/
def setNode (nodes : List Node) (i : Nat) (n : Node) : List Node := nodes.set i n

/-- Point the parent link of node j at p (used while splitting). -/
def setParentOf (nodes : List Node) (j : Nat) (p : Nat) : List Node :=
  match getNode nodes j with
  | some n => setNode nodes j { n with parent := some p }
  | none => nodes

/-- Re-parent every child carried over to a freshly split-off node, as
the source does after copying the child table. -/
def reparentAll (nodes : List Node) (nn : Node) (nnIdx : Nat) : List Node :=
  let n1 := nn.nonvarChildren.foldl
    (fun acc oc => match oc with | some j => setParentOf acc j nnIdx | none => acc) nodes
  let n2 := match nn.unmodifiedVarChild with
    | some j => setParentOf n1 j nnIdx
    | none => n1
  match nn.ellipsisModifiedVarChild with
  | some j => setParentOf n2 j nnIdx
  | none => n2

/-- addChild from the source.  Writing a static child indexes the
255-slot table by the child's label byte; an out-of-range label is a
runtime panic, modelled as none. -/
def Node.addChild (mn : Node) (childIdx : Nat) (c : Node) : Option Node :=
  match c.typ with
  | .nonvar =>
      if c.label < mn.nonvarChildren.length then
        some { mn with nonvarChildren := mn.nonvarChildren.set c.label (some childIdx),
                       hasAtLeastOneChild := true }
      else none
  | .unmodifiedVar =>
      some { mn with unmodifiedVarChild := some childIdx, hasAtLeastOneChild := true }
  | .ellipsisModifiedVar =>
      some { mn with ellipsisModifiedVarChild := some childIdx, hasAtLeastOneChild := true }

/-- A freshly created leaf for insert (the create-child branches). -/
def mkLeaf (s : Str) (nt : NType) (parent : Nat) (ht : Option HandlerTuple) (key : Str) : Node :=
  let base : Node :=
    { pfx := s, label := s.headD 0, typ := nt, parent := some parent,
      nonvarChildren := freshChildren, unmodifiedVarChild := none,
      ellipsisModifiedVarChild := none, hasAtLeastOneChild := false,
      handlerTuples := [], catchAllHandlerTuple := none,
      hasAtLeastOneHandler := false, key := key }
  match ht with
  | some h => base.setHandlerTuple h
  | none => base

/-- insert from the source, fuelled (the loop re-enters only to go
deeper into a child).  none models a runtime panic (or exhausted fuel,
which concrete fuels below never reach). -/
def insertAux : Nat → List Node → Nat → NType → Str → Option HandlerTuple → Option (List Node)
  | 0, _, _, _, _, _ => none
  | fuel + 1, nodes, cnIdx, nt, s, ht =>
    match getNode nodes cnIdx with
    | none => none
    | some cn =>
      let sl := s.length
      let pl := cn.pfx.length
      let ll := lcpLen s cn.pfx
      if s = [] then
        -- at root node
        match ht with
        | some h => some (setNode nodes cnIdx (({ cn with typ := nt }).setHandlerTuple h))
        | none => some nodes
      else if ll < pl then
        -- split node
        let nnIdx := nodes.length
        let nn : Node :=
          { pfx := cn.pfx.drop ll, label := (cn.pfx.drop ll).headD 0, typ := cn.typ,
            parent := some cnIdx, nonvarChildren := cn.nonvarChildren,
            unmodifiedVarChild := cn.unmodifiedVarChild,
            ellipsisModifiedVarChild := cn.ellipsisModifiedVarChild,
            hasAtLeastOneChild := cn.hasAtLeastOneChild,
            handlerTuples := cn.handlerTuples,
            catchAllHandlerTuple := cn.catchAllHandlerTuple,
            hasAtLeastOneHandler := cn.hasAtLeastOneHandler, key := cn.key }
        let nodes1 := reparentAll (nodes ++ [nn]) nn nnIdx
        if cn.pfx.take ll = [] then none  -- cn.prefix[0] on an empty prefix panics
        else
          let cnReset : Node :=
            { pfx := cn.pfx.take ll, label := (cn.pfx.take ll).headD 0, typ := .nonvar,
              parent := cn.parent, nonvarChildren := freshChildren,
              unmodifiedVarChild := none, ellipsisModifiedVarChild := none,
              hasAtLeastOneChild := false, handlerTuples := [],
              catchAllHandlerTuple := none, hasAtLeastOneHandler := false,
              key := cn.key.take (cn.key.length - (pl - ll)) }
          match cnReset.addChild nnIdx nn with
          | none => none
          | some cnReset2 =>
            if ll = sl then
              -- at current node
              let cnFinal :=
                match ht with
                | some h => ({ cnReset2 with typ := nt }).setHandlerTuple h
                | none => { cnReset2 with typ := nt }
              some (setNode nodes1 cnIdx cnFinal)
            else
              -- create child node
              let nn2Idx := nodes1.length
              let nn2 := mkLeaf (s.drop ll) nt cnIdx ht (cnReset2.key ++ s.drop ll)
              match cnReset2.addChild nn2Idx nn2 with
              | none => none
              | some cnReset3 =>
                some (setNode (nodes1 ++ [nn2]) cnIdx cnReset3)
      else if ll < sl then
        let s2 := s.drop ll
        let sel : Option (Option Nat) :=
          if s2.headD 0 ≠ obr then
            cn.nonvarChildren.get? (s2.headD 0)
          else
            match s2.get? 1 with
            | none => none  -- s[1] on a one-byte string panics
            | some b1 =>
                if b1 = cbr then some cn.unmodifiedVarChild
                else some cn.ellipsisModifiedVarChild
        match sel with
        | none => none
        | some (some childIdx) => insertAux fuel nodes childIdx nt s2 ht
        | some none =>
          -- create child node
          let nn2Idx := nodes.length
          let nn2 := mkLeaf s2 nt cnIdx ht (cn.key ++ s2)
          match cn.addChild nn2Idx nn2 with
          | none => none
          | some cn2 => some (setNode (nodes ++ [nn2]) cnIdx cn2)
      else
        -- node already exists
        match ht with
        | some h => some (setNode nodes cnIdx (cn.setHandlerTuple h))
        | none => some nodes

/-- insert with enough fuel for its path argument. -/
def insertT (nodes : List Node) (nt : NType) (path : Str) (ht : Option HandlerTuple) :
    Option (List Node) :=
  insertAux (2 * path.length + 8) nodes 0 nt path ht

/-- strings.TrimRight of slashes. -/
def trimRightSlash (l : Str) : Str := (l.reverse.dropWhile (· = slashB)).reverse

/-- The ServeMux state: the hostless tree, per-host trees, the
registered-pattern set and the pool size (the maximum variable count). -/
structure Mux where
  tree : Option Tree
  hostTrees : List (Str × Tree)
  registeredPatterns : List (Str × Str)
  maxPathVars : Nat
  deriving DecidableEq, Repr

/-- A fresh mux (NewServeMux). -/
def newServeMux : Mux :=
  { tree := none, hostTrees := [], registeredPatterns := [], maxPathVars := 0 }

/-- Registration faults: the empty pattern, a parse/conflict fault, or
a runtime panic inside tree surgery. -/
inductive HErr where
  | emptyPattern
  | parse (e : PErr)
  | panicked
  deriving DecidableEq, Repr

/-- The registration walk of Handle: for every variable element, insert
the literal prefix, then the variable node (with the handler when the
variable ends the path), and synthesize the trailing-slash redirect
entry for a pattern whose single variable is a trailing wildcard with a
non-empty literal prefix.  Returns the new arena and registered set, or
none on a runtime panic. -/
def handleWalk (host : Str) (pattern : Str) (pa : Str) (ht : HandlerTuple)
    (names : List Str) :
    List (Str × Str × Nat) → List Node → List (Str × Str) →
    Option (List Node × List (Str × Str))
  | [], nodes, reg => some (nodes, reg)
  | (_, elem, idx) :: rest, nodes, reg =>
    if elem.headD 0 ≠ obr then handleWalk host pattern pa ht names rest nodes reg
    else
      match insertT nodes .nonvar (pa.take idx) none with
      | none => none
      | some nodes1 =>
        let nodeType : NType :=
          if elem = wildMarker then .ellipsisModifiedVar else .unmodifiedVar
        let nsi := idx + elem.length
        if nsi < pa.length then
          match insertT nodes1 nodeType (pa.take nsi) none with
          | none => none
          | some nodes2 => handleWalk host pattern pa ht names rest nodes2 reg
        else
          match insertT nodes1 nodeType pa (some ht) with
          | none => none
          | some nodes2 =>
            if idx = 0 then none  -- path[:elemIndex-1] with a negative bound panics
            else
              let bp := trimRightSlash (pa.take (idx - 1))
              if bp ≠ [] ∧ nodeType = .ellipsisModifiedVar ∧ names.length = 1 then
                let key := bytesOf "_tsr" ++ [32] ++ host ++ bp
                match alookup reg key with
                | some _ => some (nodes2, reg)
                | none =>
                  let reg2 := aset reg key pattern
                  match insertT nodes2 .nonvar bp
                      (some ⟨bytesOf "_tsr", [], pattern, .tsr⟩) with
                  | none => none
                  | some nodes3 => some (nodes3, reg2)
              else some (nodes2, reg)

/-- Handle from the source: parse the pattern, pick (or create) the
target tree, resize the pool bound, run the registration walk, then
insert the full normalized path with the handler tuple. -/
def muxHandle (mux : Mux) (pattern : Str) (h : HandlerV) : Except HErr Mux :=
  if pattern = [] then .error .emptyPattern
  else
    let mux1 :=
      if mux.tree = none then
        { mux with tree := some ⟨[rootNode]⟩, hostTrees := [], registeredPatterns := [] }
      else mux
    match parsePattern mux1.registeredPatterns pattern with
    | .error e => .error (.parse e)
    | .ok (pp, reg1) =>
      let tree0 : Tree :=
        if pp.host = [] then (mux1.tree.getD ⟨[rootNode]⟩)
        else (alookup mux1.hostTrees pp.host).getD ⟨[rootNode]⟩
      let maxPV :=
        if mux1.maxPathVars < pp.pathVarNames.length then pp.pathVarNames.length
        else mux1.maxPathVars
      let ht : HandlerTuple :=
        { method := pp.method, pathVarNames := pp.pathVarNames,
          pattern := pattern, handler := h }
      match handleWalk pp.host pattern pp.path ht pp.pathVarNames
          (pathElems pp.path) tree0.nodes reg1 with
      | none => .error .panicked
      | some (nodes2, reg2) =>
        match insertT nodes2 .nonvar pp.path (some ht) with
        | none => .error .panicked
        | some nodes3 =>
          if pp.host = [] then
            .ok { tree := some ⟨nodes3⟩, hostTrees := mux1.hostTrees,
                  registeredPatterns := reg2, maxPathVars := maxPV }
          else
            .ok { tree := mux1.tree, hostTrees := aset mux1.hostTrees pp.host ⟨nodes3⟩,
                  registeredPatterns := reg2, maxPathVars := maxPV }

/-- Register a list of patterns in order on a fresh mux. -/
def buildMux : List (Str × HandlerV) → Except HErr Mux :=
  List.foldl (fun acc (p : Str × HandlerV) => do
    let m ← acc
    muxHandle m p.1 p.2) (.ok newServeMux)

/-- An HTTP request as far as this component reads it: method, host,
URL path, raw query, and the path-variable store that may or may not
have been attached to the request context. -/
structure Request where
  method : Str
  host : Str
  urlPath : Str
  rawQuery : Str
  store : Option (List (Str × Str))
  deriving DecidableEq, Repr

/-- PathVars from the source: the store attached to the request, or nil. -/
def pathVarsOf (r : Request) : Option (List (Str × Str)) := r.store

/-- ConfigureRequestToStorePathVars from the source: attach an empty
store unless one is already present (in which case the request is
returned unchanged). -/
def configureRequestToStorePathVars (r : Request) : Request :=
  match r.store with
  | some _ => r
  | none => { r with store := some [] }

/-- State of the iterative matcher (the local variables of the source's
match loop).  `s` is not stored: the source keeps the invariant
s = path[si:], so the remaining input is recomputed from `si`.
`captures`, `acquires`, `visited` and `saveEligible` are ghost
instrumentation: captures counts writes of a variable value, acquires
counts pool Get calls, visited records every node the cursor moves to,
and saveEligible records every point at which the source would consider
saving a fallback node (full consumption at a node with a handler, or
entry into a wildcard child). -/
structure MSt where
  si : Nat
  cn : Nat
  sn : Option Nat
  pvi : Nat
  pvvs : Option (List Str)
  captures : Nat
  acquires : Nat
  visited : List Nat
  saveEligible : List Nat
  deriving DecidableEq, Repr

/-- Control points of the match loop: the loop head, the two labelled
goto targets, and the backtracking block parameterized by the
from-node-type register. -/
inductive PC where
  | top
  | tryVar
  | tryWildcard
  | backtrack (fnt : NType)
  deriving DecidableEq, Repr

/-- One-step outcome of the matcher. -/
inductive StepRes where
  | next (st : MSt) (pc : PC)
  | success (ht : HandlerTuple) (st : MSt)
  | failure (st : MSt)
  | panicked
  deriving DecidableEq, Repr

/-- One step of the match loop, translated from the source's goto
structure.  Array indexing beyond bounds and nil dereferences are
`panicked`. -/
def mstep (nodes : List Node) (path method : Str) (maxPV : Nat) (st : MSt) :
    PC → StepRes
  | .top =>
    match getNode nodes st.cn with
    | none => .panicked
    | some nd =>
      let consumed : Option Nat :=
        if nd.typ = .nonvar then
          let s := path.drop st.si
          let ll := lcpLen s nd.pfx
          if ll ≠ nd.pfx.length then none else some (st.si + ll)
        else some st.si
      match consumed with
      | none => .next st (.backtrack .nonvar)
      | some si2 =>
        let st1 := { st with si := si2 }
        let s2 := path.drop si2
        if s2 = [] ∧ nd.hasAtLeastOneHandler then
          let st2 := { st1 with sn := st1.sn.orElse (fun _ => some st1.cn),
                                saveEligible := st1.saveEligible ++ [st1.cn] }
          match nd.handlerTupleByMethod method with
          | some ht => .success ht st2
          | none => .next st2 .tryVar
        else
          match s2 with
          | [] => .next st1 .tryVar
          | b :: _ =>
            match nd.nonvarChildren.get? b with
            | none => .panicked
            | some none => .next st1 .tryVar
            | some (some j) =>
                .next { st1 with cn := j, visited := st1.visited ++ [j] } .top
  | .tryVar =>
    match getNode nodes st.cn with
    | none => .panicked
    | some nd =>
      match nd.unmodifiedVarChild with
      | none => .next st .tryWildcard
      | some j =>
        let s := path.drop st.si
        let seg := s.takeWhile (· ≠ slashB)
        let buf := st.pvvs.getD (List.replicate maxPV [])
        let acq := if st.pvvs = none then 1 else 0
        if st.pvi < buf.length then
          let st2 : MSt :=
            { si := st.si + seg.length, cn := j, sn := st.sn, pvi := st.pvi + 1,
              pvvs := some (buf.set st.pvi seg), captures := st.captures + 1,
              acquires := st.acquires + acq, visited := st.visited ++ [j],
              saveEligible := st.saveEligible }
          .next st2 .top
        else .panicked
  | .tryWildcard =>
    match getNode nodes st.cn with
    | none => .panicked
    | some nd =>
      match nd.ellipsisModifiedVarChild with
      | none => .next st (.backtrack .ellipsisModifiedVar)
      | some j =>
        let s := path.drop st.si
        let buf := st.pvvs.getD (List.replicate maxPV [])
        let acq := if st.pvvs = none then 1 else 0
        if st.pvi < buf.length then
          match getNode nodes j with
          | none => .panicked
          | some wnd =>
            let st2 : MSt :=
              { si := st.si + s.length, cn := j,
                sn := st.sn.orElse (fun _ => some j), pvi := st.pvi + 1,
                pvvs := some (buf.set st.pvi s), captures := st.captures + 1,
                acquires := st.acquires + acq, visited := st.visited ++ [j],
                saveEligible := st.saveEligible ++ [j] }
            match wnd.handlerTupleByMethod method with
            | some ht => .success ht st2
            | none => .next st2 (.backtrack .ellipsisModifiedVar)
        else .panicked
  | .backtrack fnt =>
    match getNode nodes st.cn with
    | none => .panicked
    | some nd =>
      let undone : Option (Nat × Nat) :=
        if fnt ≠ .nonvar then
          if nd.typ = .nonvar then
            if nd.pfx.length ≤ st.si then some (st.si - nd.pfx.length, st.pvi) else none
          else
            match st.pvi, st.pvvs with
            | pvi2 + 1, some buf =>
              match buf.get? pvi2 with
              | some v => if v.length ≤ st.si then some (st.si - v.length, pvi2) else none
              | none => none
            | _, _ => none
        else some (st.si, st.pvi)
      match undone with
      | none => .panicked
      | some (si2, pvi2) =>
        let nnt := nd.typ.next
        match nd.parent with
        | some p =>
          let st2 : MSt :=
            { si := si2, cn := p, sn := st.sn, pvi := pvi2, pvvs := st.pvvs,
              captures := st.captures, acquires := st.acquires,
              visited := st.visited ++ [p], saveEligible := st.saveEligible }
          match nnt with
          | .unmodifiedVar => .next st2 .tryVar
          | .ellipsisModifiedVar => .next st2 .tryWildcard
          | .nonvar => .failure st2
        | none =>
          let sn2 := if fnt = .nonvar then none else st.sn
          .failure { st with si := si2, pvi := pvi2, sn := sn2 }

/-- Raw outcome of running the match loop. -/
inductive MRaw where
  | success (ht : HandlerTuple) (st : MSt)
  | failure (st : MSt)
  | panicked
  | fuelOut
  deriving DecidableEq, Repr

/-- Run the match loop with fuel. -/
def mrun (nodes : List Node) (path method : Str) (maxPV : Nat) :
    Nat → MSt → PC → MRaw
  | 0, _, _ => .fuelOut
  | fuel + 1, st, pc =>
    match mstep nodes path method maxPV st pc with
    | .next st2 pc2 => mrun nodes path method maxPV fuel st2 pc2
    | .success ht st2 => .success ht st2
    | .failure st2 => .failure st2
    | .panicked => .panicked

/-- Publish captured values into the store: anonymous names are
skipped without reading the buffer, named values are read by position
(a read from a nil or too-short buffer is a panic, modelled as none). -/
def publishVars : List Str → Nat → Option (List Str) → List (Str × Str) →
    Option (List (Str × Str))
  | [], _, _, store => some store
  | n :: rest, i, bufO, store =>
    if n = [] then publishVars rest (i + 1) bufO store
    else
      match bufO with
      | none => none
      | some buf =>
        match buf.get? i with
        | none => none
        | some v => publishVars rest (i + 1) bufO (aset store n v)

/-- Answer of one match call: a found handler with its pattern, the
nil-handler NotFound return, or the synthesized MethodNotAllowed
handler (returned with an empty pattern). -/
inductive MatchAnswer where
  | found (h : HandlerV) (pat : Str)
  | notFound
  | methodNotAllowed
  deriving DecidableEq, Repr

/-- Processed outcome of one match call: the answer, the request store
after any publication, and the ghost instrumentation. -/
structure MatchResult where
  res : MatchAnswer
  store : Option (List (Str × Str))
  captures : Nat
  acquires : Nat
  releases : Nat
  visited : List Nat
  saveEligible : List Nat
  snFinal : Option Nat
  deriving DecidableEq, Repr

/-- Outcome of one match call. -/
inductive MOut where
  | ok (r : MatchResult)
  | panicked
  | fuelOut
  deriving DecidableEq, Repr

/-- match from the source: run the loop from the tree root, then apply
the two exit paths (failure: release the buffer if acquired, answer
405 when a saved node with a handler exists and NotFound otherwise;
success: publish into a pre-existing store and release the buffer when
the tuple names at least one variable). -/
def matchT (mux : Mux) (t : Tree) (path : Str) (r : Request) (fuel : Nat) : MOut :=
  let st0 : MSt :=
    { si := 0, cn := 0, sn := none, pvi := 0, pvvs := none,
      captures := 0, acquires := 0, visited := [0], saveEligible := [] }
  match mrun t.nodes path r.method mux.maxPathVars fuel st0 .top with
  | .fuelOut => .fuelOut
  | .panicked => .panicked
  | .failure st =>
    let releases := if st.pvvs.isSome then 1 else 0
    let res : MatchAnswer :=
      match st.sn with
      | some k =>
        match getNode t.nodes k with
        | some knd =>
            if knd.hasAtLeastOneHandler then .methodNotAllowed else .notFound
        | none => .notFound
      | none => .notFound
    .ok { res := res, store := r.store, captures := st.captures,
          acquires := st.acquires, releases := releases,
          visited := st.visited, saveEligible := st.saveEligible, snFinal := st.sn }
  | .success ht st =>
    if ht.pathVarNames.length > 0 then
      let storeOut : Option (Option (List (Str × Str))) :=
        match r.store with
        | some s =>
          match publishVars ht.pathVarNames 0 st.pvvs s with
          | none => none
          | some s2 => some (some s2)
        | none => some none
      match storeOut with
      | none => .panicked
      | some st2 =>
        .ok { res := .found ht.handler ht.pattern, store := st2,
              captures := st.captures, acquires := st.acquires, releases := 1,
              visited := st.visited, saveEligible := st.saveEligible,
              snFinal := st.sn }
    else
      .ok { res := .found ht.handler ht.pattern, store := r.store,
            captures := st.captures, acquires := st.acquires, releases := 0,
            visited := st.visited, saveEligible := st.saveEligible,
            snFinal := st.sn }

/-- The backtracking cursor of path.Clean's dot-dot case: starting at
w, step left while above the dot-dot floor and the byte at the cursor
is not a slash. -/
def backKillW (out : Str) (dotdot : Nat) : Nat → Nat
  | 0 => 0
  | w + 1 => if dotdot ≤ w ∧ out.getD (w + 1) 0 ≠ slashB then backKillW out dotdot w else w + 1

/-- The main loop of path.Clean from the Go standard library (the
path-cleaning collaborator the source delegates to), on bytes:
consumes the remaining input, maintaining the output buffer and the
dot-dot floor. -/
def cleanAux (rooted : Bool) : Nat → Str → Str → Nat → Str
  | 0, _, out, _ => out
  | _ + 1, [], out, _ => out
  | fuel + 1, c :: rest, out, dotdot =>
    if c = slashB then cleanAux rooted fuel rest out dotdot
    else if c = 46 ∧ (rest = [] ∨ rest.headD 0 = slashB) then
      cleanAux rooted fuel rest out dotdot
    else if c = 46 ∧ rest.headD 0 = 46 ∧
        (rest.drop 1 = [] ∨ (rest.drop 1).headD 0 = slashB) then
      let rest2 := rest.drop 1
      if dotdot < out.length then
        let w := backKillW out dotdot (out.length - 1)
        cleanAux rooted fuel rest2 (out.take w) dotdot
      else if ¬ rooted then
        let out1 := (if 0 < out.length then out ++ [slashB] else out) ++ [46, 46]
        cleanAux rooted fuel rest2 out1 out1.length
      else cleanAux rooted fuel rest2 out dotdot
    else
      let out1 :=
        if (rooted ∧ out.length ≠ 1) ∨ (¬ rooted ∧ out.length ≠ 0) then out ++ [slashB]
        else out
      let elem := (c :: rest).takeWhile (· ≠ slashB)
      let rest2 := (c :: rest).dropWhile (· ≠ slashB)
      cleanAux rooted fuel rest2 (out1 ++ elem) dotdot

/-- path.Clean from the Go standard library, on bytes. -/
def pathClean (p : Str) : Str :=
  if p = [] then [46]
  else
    let rooted := p.headD 0 = slashB
    let out0 : Str := if rooted then [slashB] else []
    let dd0 : Nat := if rooted then 1 else 0
    let start := if rooted then p.drop 1 else p
    let out := cleanAux rooted (start.length + 1) start out0 dd0
    if out = [] then [46] else out

/-- cleanPath from the source: empty becomes the root, a missing
leading slash is added, then path.Clean runs and a trailing slash is
restored for non-root results. -/
def cleanPath (p : Str) : Str :=
  if p = [] then [slashB]
  else
    let p1 := if p.headD 0 ≠ slashB then slashB :: p else p
    let np := pathClean p1
    if p1.getLastD 0 = slashB ∧ np ≠ [slashB] then
      if p1.length = np.length + 1 ∧ np.isPrefixOf p1 then p1 else np ++ [slashB]
    else np

/-- The URL string of a path plus raw query (the url.URL String
boundary; percent-escaping is the identity on the byte ranges used
here). -/
def urlString (path rawQuery : Str) : Str :=
  path ++ (if rawQuery = [] then [] else 63 :: rawQuery)

/-- stripHostPort from the source.  The split itself is delegated to
net.SplitHostPort; modelled from its documented behavior for the
ordinary host:port shape (any other shape errors and leaves the host
unchanged). -/
def stripHostPort (h : Str) : Str :=
  if ¬ h.contains 58 then h
  else if (h.filter (· = 58)).length = 1 then h.takeWhile (· ≠ 58) else h

/-- Observable behavior of the handlers this component returns. -/
inductive HResp where
  | redirect (loc : Str) (code : Nat)
  | notFound
  | methodNotAllowed
  | user (id : Nat)
  deriving DecidableEq, Repr

/-- Run a handler on a request, yielding its observable response.  The
trailing-slash-redirect closure redirects to the request path plus a
slash, preserving the raw query; the canonicalization redirect carries
its precomputed location; both use the permanent-redirect status 301. -/
def runHandler : HandlerV → Request → HResp
  | .user i, _ => .user i
  | .tsr, r => .redirect (urlString (r.urlPath ++ [slashB]) r.rawQuery) 301
  | .redirect u, _ => .redirect u 301
  | .notFound, _ => .notFound
  | .methodNotAllowed, _ => .methodNotAllowed

/-- Outcome of the Handler dispatcher. -/
inductive HOut where
  | ok (h : HandlerV) (pat : Str) (store : Option (List (Str × Str)))
  | panicked
  | fuelOut
  deriving DecidableEq, Repr

/-- handler from the source: try the host tree (host stripped of its
port except for CONNECT), then the hostless tree, then the NotFound
handler. -/
def muxHandlerInner (mux : Mux) (path : Str) (r : Request) (fuel : Nat) : HOut :=
  let connectStr := bytesOf "CONNECT"
  let hostStep : Option HOut :=
    if mux.hostTrees ≠ [] then
      let hkey := if r.method ≠ connectStr then stripHostPort r.host else r.host
      match alookup mux.hostTrees hkey with
      | some t =>
        match matchT mux t path r fuel with
        | .panicked => some .panicked
        | .fuelOut => some .fuelOut
        | .ok res =>
          match res.res with
          | .found h pat => some (.ok h pat res.store)
          | .methodNotAllowed => some (.ok .methodNotAllowed [] res.store)
          | .notFound => none
      | none => none
    else none
  match hostStep with
  | some out => out
  | none =>
    match mux.tree with
    | some t =>
      match matchT mux t path r fuel with
      | .panicked => .panicked
      | .fuelOut => .fuelOut
      | .ok res =>
        match res.res with
        | .found h pat => .ok h pat res.store
        | .methodNotAllowed => .ok .methodNotAllowed [] res.store
        | .notFound => .ok .notFound [] r.store
    | none => .ok .notFound [] r.store

/-- Handler from the source: canonicalize the path unless the method is
CONNECT, delegate to the matcher, and if canonicalization changed the
path return a permanent redirect to the canonical path (query
preserved) while keeping the reported pattern. -/
def muxHandlerM (mux : Mux) (r : Request) (fuel : Nat) : HOut :=
  let connectStr := bytesOf "CONNECT"
  let path := if r.method ≠ connectStr then cleanPath r.urlPath else r.urlPath
  match muxHandlerInner mux path r fuel with
  | .ok h pat store =>
    if path ≠ r.urlPath then
      .ok (.redirect (urlString path r.rawQuery)) pat store
    else .ok h pat store
  | out => out

/-- ServeHTTP from the source, as far as routing is concerned: attach
the path-variable store, then dispatch (the RequestURI = asterisk
branch is transport-level and out of scope). -/
def serveHTTPRoute (mux : Mux) (r : Request) (fuel : Nat) : HOut :=
  muxHandlerM mux (configureRequestToStorePathVars r) fuel

/-! ### Concrete fixtures for the claims -/

/-- Whether a registration result is a success. -/
def isOkE : Except HErr Mux → Bool
  | .ok _ => true
  | .error _ => false

/-- Run the matcher of a built mux's hostless tree on a method and a
path, with the given store attached to the request. -/
def runMuxOn (em : Except HErr Mux) (method path : Str)
    (store : Option (List (Str × Str))) : MOut :=
  match em with
  | .ok mux =>
    match mux.tree with
    | some t =>
        matchT mux t path
          { method := method, host := [], urlPath := path,
            rawQuery := [], store := store } 200
    | none => .fuelOut
  | .error _ => .fuelOut

/-- The answer of a match outcome. -/
def resOf : MOut → Option MatchAnswer
  | .ok r => some r.res
  | _ => none

/-- The store of a match outcome. -/
def storeOf : MOut → Option (Option (List (Str × Str)))
  | .ok r => some r.store
  | _ => none

/-- The ghost counters (captures, acquires, releases) of a match outcome. -/
def countsOf : MOut → Option (Nat × Nat × Nat)
  | .ok r => some (r.captures, r.acquires, r.releases)
  | _ => none

/-- The visited-node trace of a match outcome. -/
def visitedOf : MOut → Option (List Nat)
  | .ok r => some r.visited
  | _ => none

/-- The GET method bytes. -/
def bGET : Str := bytesOf "GET"

/-- The normalized pattern key used by the registered-pattern set. -/
def patKey (pp : ParsedPattern) : Str := pp.method ++ [32] ++ pp.host ++ pp.path

/-- The static pattern of the precedence trio. -/
def patStat : Str := bytesOf "/a/b"

/-- The single-segment-variable pattern of the precedence trio. -/
def patVarX : Str := bytesOf "/a/" ++ [obr] ++ bytesOf "x" ++ [cbr]

/-- The wildcard pattern of the precedence trio. -/
def patWildY : Str := bytesOf "/a/" ++ [obr] ++ bytesOf "y..." ++ [cbr]

/-- The variable pattern with a trailing slash. -/
def patVarXslash : Str := patVarX ++ [slashB]

/-- A pattern differing from patVarX-style naming only (conflict pair). -/
def patFooBar : Str := bytesOf "/foo/" ++ [obr] ++ bytesOf "bar" ++ [cbr]

/-- The other half of the conflict pair. -/
def patFooBaz : Str := bytesOf "/foo/" ++ [obr] ++ bytesOf "baz" ++ [cbr]

/-- Mux with only POST /r. -/
def muxPostR : Except HErr Mux := buildMux [(bytesOf "POST /r", .user 1)]

/-- Mux with only the variable pattern. -/
def muxVarX : Except HErr Mux := buildMux [(patVarX, .user 7)]

/-- Mux with only GET /a. -/
def muxGetA : Except HErr Mux := buildMux [(bytesOf "GET /a", .user 3)]

/-- Mux with only the root subtree pattern. -/
def muxRoot : Except HErr Mux := buildMux [(bytesOf "/", .user 4)]

/-- Mux with only the subtree pattern /s/. -/
def muxSsub : Except HErr Mux := buildMux [(bytesOf "/s/", .user 5)]

/-- Mux registering the bare path first, then the subtree pattern. -/
def muxSexpFirst : Except HErr Mux :=
  buildMux [(bytesOf "/s", .user 11), (bytesOf "/s/", .user 5)]

/-- Mux registering the subtree pattern first, then the bare path. -/
def muxSexpLater : Except HErr Mux :=
  buildMux [(bytesOf "/s/", .user 5), (bytesOf "/s", .user 11)]

/-- Mux with the two-variable trailing-slash pattern. -/
def muxVarXslash : Except HErr Mux := buildMux [(patVarXslash, .user 6)]

/-- Mux with only GET /b. -/
def muxGetB : Except HErr Mux := buildMux [(bytesOf "GET /b", .user 9)]

/-- All six registration orders of the precedence trio. -/
def trioOrders : List (List (Str × HandlerV)) :=
  [[(patStat, .user 1), (patVarX, .user 2), (patWildY, .user 3)],
   [(patStat, .user 1), (patWildY, .user 3), (patVarX, .user 2)],
   [(patVarX, .user 2), (patStat, .user 1), (patWildY, .user 3)],
   [(patVarX, .user 2), (patWildY, .user 3), (patStat, .user 1)],
   [(patWildY, .user 3), (patStat, .user 1), (patVarX, .user 2)],
   [(patWildY, .user 3), (patVarX, .user 2), (patStat, .user 1)]]

/-! ### Claim theorems -/

set_option maxRecDepth 40000

/-- C3: the spec claims every node's static-children table has 256
slots so that indexing by any byte value 0..255 stays in bounds.  The
code allocates tables of 255 slots, so the table has no slot for byte
255, and a request whose remaining path starts with byte 255 at a node
with static children indexes the table out of range: with only the
pattern "/" registered (which succeeds), a GET request for the path
0x2F 0xFF crashes the search. -/
theorem c3_static_table_has_255_slots_and_byte_255_crashes :
    freshChildren.length = 255 ∧
    isOkE muxRoot = true ∧
    runMuxOn muxRoot bGET [47, 255] none = .panicked := by decide

/-- C5 counterexample: the pattern "/a/{x}/" ends in a slash, yet no
redirect entry is synthesized at its bare path: registration succeeds
but a GET request for "/a/b" (which the bare path "/a/{x}" matches)
yields NotFound rather than a redirect — the synthesis only happens
when the trailing wildcard is the pattern's sole variable. -/
theorem c5_counterexample_extra_variable_no_synthesis :
    isOkE muxVarXslash = true ∧
    resOf (runMuxOn muxVarXslash bGET (bytesOf "/a/b") none) = some .notFound := by
  decide

/-- Writing a map entry never leaves the map empty. -/
theorem aset_len_pos {α : Type} [DecidableEq α] {β : Type}
    (l : List (α × β)) (k : α) (v : β) : 0 < (aset l k v).length := by
  cases l with
  | nil => simp [aset]
  | cons p rest =>
    cases p with
    | mk k0 v0 =>
      rw [aset]
      split <;> simp

/-- The registration walk ignores non-variable path elements. -/
theorem handleWalk_skip_literals (host pattern pa : Str) (ht : HandlerTuple)
    (names : List Str) :
    ∀ (pre tail : List (Str × Str × Nat)) (nodes : List Node)
      (reg : List (Str × Str)),
      (∀ e ∈ pre, (e.2.1).headD 0 ≠ obr) →
      handleWalk host pattern pa ht names (pre ++ tail) nodes reg =
        handleWalk host pattern pa ht names tail nodes reg := by
  intro pre
  induction pre with
  | nil =>
    intro tail nodes reg hpre
    rfl
  | cons e rest ih =>
    intro tail nodes reg hpre
    obtain ⟨rps, elem, idx⟩ := e
    simp only [List.cons_append]
    rw [handleWalk, if_pos (hpre _ (List.mem_cons_self _ _))]
    exact ih tail nodes reg (fun e2 he => hpre e2 (List.mem_cons_of_mem _ he))

/-- A `_tsr` registration at a node that already has any handler is a
no-op, for every node and every `_tsr` tuple. -/
theorem setHandlerTuple_tsr_noop (n : Node) (ht : HandlerTuple)
    (hm : ht.method = bytesOf "_tsr") (hh : n.hasAtLeastOneHandler = true) :
    Node.setHandlerTuple n ht = n := by
  rw [Node.setHandlerTuple]
  dsimp only
  rw [if_pos]
  rw [hm, hh]
  decide

/-- After any non-`_tsr` registration at a node, the node's catch-all
entry is never a `_tsr` entry: an explicit registration at the bare
path always supersedes the synthesized redirect entry. -/
theorem setHandlerTuple_evicts_tsr (n : Node) (ht c2 : HandlerTuple)
    (hm : ¬ ht.method = bytesOf "_tsr")
    (hc : (Node.setHandlerTuple n ht).catchAllHandlerTuple = some c2) :
    ¬ c2.method = bytesOf "_tsr" := by
  have htsrne : ¬ (bytesOf "_tsr" = ([] : Str)) := by decide
  by_cases h1 : ht.method = []
  · simp [Node.setHandlerTuple, hm, h1, htsrne] at hc
    rw [← hc]
    exact hm
  · have hpos := aset_len_pos n.handlerTuples ht.method ht
    cases hca : n.catchAllHandlerTuple with
    | none =>
      simp [Node.setHandlerTuple, hm, h1, hca] at hc
    | some c =>
      by_cases hcm : c.method = bytesOf "_tsr"
      · simp [Node.setHandlerTuple, hm, h1, hca, hcm, hpos] at hc
      · simp [Node.setHandlerTuple, hm, h1, hca, hcm] at hc
        rw [← hc]
        exact hcm

/-- C5 (amended): (creation, all trees and patterns) whenever the
registration walk runs over elements ending in the path-final trailing
wildcard with any literal elements before it, the pattern's variable
list has exactly one name, the bare path (the literal prefix with
trailing slashes trimmed) is non-empty and the `_tsr` key is not yet
registered, a completing walk records that key as registered for the
original pattern and its final tree results from inserting the
redirect-only `_tsr` tuple at the bare path; (redirect semantics, all
requests) the synthesized handler answers every request with a 301
permanent redirect to the request path plus a slash, preserving the
raw query; (suppression, all nodes) a `_tsr` registration at a node
that already has a handler changes nothing; (supersession, all nodes)
after any explicit registration the catch-all is never a `_tsr`
entry.  The final conjuncts run the representative registrations
end-to-end: creation at /s/, the redirect with a query, suppression
by an earlier /s, supersession by a later /s. -/
theorem c5_amended_trailing_slash_synthesis :
    (∀ (host pattern pa : Str) (ht : HandlerTuple) (names : List Str)
       (pre : List (Str × Str × Nat)) (rps : Str) (idx : Nat)
       (nodes nodesOut : List Node) (reg regOut : List (Str × Str)),
      (∀ e ∈ pre, (e.2.1).headD 0 ≠ obr) →
      pa.length ≤ idx + 5 →
      idx ≠ 0 →
      names.length = 1 →
      trimRightSlash (pa.take (idx - 1)) ≠ [] →
      alookup reg
        (bytesOf "_tsr" ++ [32] ++ host ++ trimRightSlash (pa.take (idx - 1)))
        = none →
      handleWalk host pattern pa ht names
        (pre ++ [(rps, wildMarker, idx)]) nodes reg = some (nodesOut, regOut) →
      regOut = aset reg
        (bytesOf "_tsr" ++ [32] ++ host ++ trimRightSlash (pa.take (idx - 1)))
        pattern ∧
      ∃ nodesB, insertT nodesB .nonvar (trimRightSlash (pa.take (idx - 1)))
        (some ⟨bytesOf "_tsr", [], pattern, .tsr⟩) = some nodesOut) ∧
    (∀ r : Request, runHandler .tsr r =
      .redirect (urlString (r.urlPath ++ [slashB]) r.rawQuery) 301) ∧
    (∀ (n : Node) (ht : HandlerTuple), ht.method = bytesOf "_tsr" →
      n.hasAtLeastOneHandler = true → Node.setHandlerTuple n ht = n) ∧
    (∀ (n : Node) (ht c2 : HandlerTuple), ¬ ht.method = bytesOf "_tsr" →
      (Node.setHandlerTuple n ht).catchAllHandlerTuple = some c2 →
      ¬ c2.method = bytesOf "_tsr") ∧
    resOf (runMuxOn muxSsub bGET (bytesOf "/s") none) =
      some (.found .tsr (bytesOf "/s/")) ∧
    runHandler .tsr
        { method := bGET, host := [], urlPath := bytesOf "/s",
          rawQuery := bytesOf "k=v", store := none } =
      .redirect (bytesOf "/s/?k=v") 301 ∧
    resOf (runMuxOn muxSexpFirst bGET (bytesOf "/s") none) =
      some (.found (.user 11) (bytesOf "/s")) ∧
    resOf (runMuxOn muxSexpLater bGET (bytesOf "/s") none) =
      some (.found (.user 11) (bytesOf "/s")) := by
  refine ⟨?_, fun r => rfl, setHandlerTuple_tsr_noop, setHandlerTuple_evicts_tsr,
          by decide, by decide, by decide, by decide⟩
  intro host pattern pa ht names pre rps idx nodes nodesOut reg regOut
  intro hpre hend hidx hnames hbp hkey hwalk
  rw [handleWalk_skip_literals host pattern pa ht names pre _ nodes reg hpre]
    at hwalk
  rw [handleWalk] at hwalk
  dsimp only at hwalk
  rw [if_neg (by decide)] at hwalk
  split at hwalk
  · cases hwalk
  · rename_i nodes1 hA
    have hnt : (if wildMarker = wildMarker then NType.ellipsisModifiedVar
        else NType.unmodifiedVar) = NType.ellipsisModifiedVar := by decide
    simp only [hnt] at hwalk
    have hnsi : ¬ (idx + wildMarker.length < pa.length) := by
      have h5 : wildMarker.length = 5 := by decide
      omega
    rw [if_neg hnsi] at hwalk
    split at hwalk
    · cases hwalk
    · rename_i nodesB hB
      rw [if_neg hidx] at hwalk
      rw [if_pos ⟨hbp, rfl, hnames⟩] at hwalk
      simp only [hkey] at hwalk
      split at hwalk
      · cases hwalk
      · rename_i nodesC hC
        cases hwalk
        exact ⟨rfl, nodesB, hC⟩

/-- The parse of the pattern /s/ (its normalized form and the updated
registered-pattern set). -/
def c5PP : ParsedPattern × List (Str × Str) :=
  match parsePattern [] (bytesOf "/s/") with
  | .ok pr => pr
  | .error _ => ({ method := [], host := [], path := [], pathVarNames := [] }, [])

/-- The handler tuple Handle builds for /s/. -/
def c5Ht : HandlerTuple :=
  { method := c5PP.1.method, pathVarNames := c5PP.1.pathVarNames,
    pattern := bytesOf "/s/", handler := .user 5 }

/-- The registration walk of /s/ over a fresh tree. -/
def c5WalkRes : List Node × List (Str × Str) :=
  match handleWalk c5PP.1.host (bytesOf "/s/") c5PP.1.path c5Ht
      c5PP.1.pathVarNames (pathElems c5PP.1.path) [rootNode] c5PP.2 with
  | some pr => pr
  | none => ([], [])

/-- C5 witness: the creation clause applied to the registration of /s/
on a fresh tree: the walk ends with the `_tsr` key registered for /s/
and the redirect-only tuple inserted at the bare path /s. -/
theorem c5_witness :
    c5WalkRes.2 = aset c5PP.2
      (bytesOf "_tsr" ++ [32] ++ c5PP.1.host ++
        trimRightSlash (c5PP.1.path.take (3 - 1))) (bytesOf "/s/") ∧
    ∃ nodesB, insertT nodesB .nonvar (trimRightSlash (c5PP.1.path.take (3 - 1)))
      (some ⟨bytesOf "_tsr", [], bytesOf "/s/", .tsr⟩) = some c5WalkRes.1 :=
  c5_amended_trailing_slash_synthesis.1 c5PP.1.host (bytesOf "/s/") c5PP.1.path
    c5Ht c5PP.1.pathVarNames [([slashB], bytesOf "s", 1)] [slashB] 3 [rootNode]
    c5WalkRes.1 c5PP.2 c5WalkRes.2 (by decide) (by decide) (by decide)
    (by decide) (by decide) (by decide) (by decide)

/-- C8 counterexample: a pattern consisting only of a host parses
successfully with an empty path and registers without fault, whereas
the claim says it must fail with a pattern-syntax fault. -/
theorem c8_counterexample_host_only_pattern_accepted :
    parsePatternCore (bytesOf "example.com") =
      .ok { method := [], host := bytesOf "example.com", path := [],
            pathVarNames := [] } ∧
    isOkE (buildMux [(bytesOf "example.com", .user 1)]) = true := by
  decide

/-- C4: whenever two patterns parse to the same normalized key
(method, host, denamed path) — in particular two patterns differing
only in variable names, or the same pattern twice — the first
registration succeeds and inserts the key into the registered set,
and the second fails with a conflict fault naming both patterns.  The
two Handle-level conjuncts exercise the variable-renaming pair and
the literal re-registration with a different handler. -/
theorem c4_identical_normalized_keys_conflict :
    (∀ p1 p2 pp1 pp2,
      parsePatternCore p1 = .ok pp1 →
      parsePatternCore p2 = .ok pp2 →
      patKey pp2 = patKey pp1 →
      parsePattern [] p1 = .ok (pp1, [(patKey pp1, p1)]) ∧
      parsePattern [(patKey pp1, p1)] p2 = .error (.conflict p2 p1)) ∧
    buildMux [(patFooBar, .user 1), (patFooBaz, .user 2)] =
      .error (.parse (.conflict patFooBaz patFooBar)) ∧
    buildMux [(patFooBar, .user 1), (patFooBar, .user 2)] =
      .error (.parse (.conflict patFooBar patFooBar)) := by
  refine ⟨?_, by decide, by decide⟩
  intro p1 p2 pp1 pp2 h1 h2 hk
  constructor
  · simp only [parsePattern, h1, patKey] at hk ⊢
    simp [bind, Except.bind, alookup, aset]
  · simp only [parsePattern, h2, patKey] at hk ⊢
    simp only [bind, Except.bind, alookup]
    rw [if_pos hk.symm]

/-- C7: for every non-CONNECT request whose path differs from its
canonical form, whenever the dispatcher returns at all it returns the
permanent-redirect handler targeting the canonical path with the query
string preserved — never the matched handler — while the reported
pattern is exactly what the inner matcher reported for the canonical
path (with the store the inner matcher produced). -/
theorem c7_canonicalization_redirects :
    ∀ (mux : Mux) (r : Request) (fuel : Nat) (h : HandlerV) (pat : Str)
      (store : Option (List (Str × Str))),
      r.method ≠ bytesOf "CONNECT" →
      cleanPath r.urlPath ≠ r.urlPath →
      muxHandlerM mux r fuel = .ok h pat store →
      h = .redirect (urlString (cleanPath r.urlPath) r.rawQuery) ∧
      ∃ h0, muxHandlerInner mux (cleanPath r.urlPath) r fuel = .ok h0 pat store := by
  intro mux r fuel h pat store hm hc heq
  simp only [muxHandlerM, if_pos hm] at heq
  cases hinner : muxHandlerInner mux (cleanPath r.urlPath) r fuel with
  | ok h0 pat0 st0 =>
    rw [hinner] at heq
    simp only [if_pos hc] at heq
    cases heq
    exact ⟨rfl, ⟨h0, rfl⟩⟩
  | panicked => rw [hinner] at heq; cases heq
  | fuelOut => rw [hinner] at heq; cases heq

/-- The request GET /a/../b?k=v. -/
def reqC7 : Request :=
  { method := bGET, host := [], urlPath := bytesOf "/a/../b",
    rawQuery := bytesOf "k=v", store := none }

/-- The mux behind muxGetB. -/
def muxGetBv : Mux :=
  match muxGetB with
  | .ok m => m
  | .error _ => newServeMux

/-- C7 witness: against a tree holding GET /b, the request
GET /a/../b?k=v is answered with a redirect to /b?k=v while the
pattern GET /b is still reported. -/
theorem c7_witness :
    (reqC7.method ≠ bytesOf "CONNECT" ∧ cleanPath reqC7.urlPath ≠ reqC7.urlPath) ∧
    (HandlerV.redirect (bytesOf "/b?k=v") =
        .redirect (urlString (cleanPath reqC7.urlPath) reqC7.rawQuery) ∧
      ∃ h0, muxHandlerInner muxGetBv (cleanPath reqC7.urlPath) reqC7 64 =
        .ok h0 (bytesOf "GET /b") none) :=
  ⟨⟨by decide, by decide⟩,
    c7_canonicalization_redirects muxGetBv reqC7 64 (.redirect (bytesOf "/b?k=v"))
      (bytesOf "GET /b") none (by decide) (by decide) (by decide)⟩

/-- C9: the single-segment-variable step never requires a non-empty
segment: at a node with a variable child, when the remaining path
supplies zero bytes before the next slash (or end), the matcher still
enters the variable child, consuming nothing and recording the empty
string.  Concretely, with /a/{x} registered, GET /a/ matches and binds
x to the empty string. -/
theorem c9_variable_matches_empty_segment :
    (∀ (nodes : List Node) (path method : Str) (maxPV : Nat) (st : MSt)
        (nd : Node) (j : Nat),
      getNode nodes st.cn = some nd →
      nd.unmodifiedVarChild = some j →
      st.pvi < (st.pvvs.getD (List.replicate maxPV [])).length →
      (path.drop st.si).takeWhile (· ≠ slashB) = [] →
      ∃ st2, mstep nodes path method maxPV st .tryVar = .next st2 .top ∧
        st2.cn = j ∧ st2.si = st.si ∧
        st2.pvvs = some ((st.pvvs.getD (List.replicate maxPV [])).set st.pvi [])) ∧
    resOf (runMuxOn muxVarX bGET (bytesOf "/a/") (some [])) =
      some (.found (.user 7) patVarX) ∧
    storeOf (runMuxOn muxVarX bGET (bytesOf "/a/") (some [])) =
      some (some [(bytesOf "x", [])]) := by
  refine ⟨?_, by decide, by decide⟩
  intro nodes path method maxPV st nd j hget hvar hlt hseg
  have hstep : mstep nodes path method maxPV st .tryVar =
      .next { si := st.si, cn := j, sn := st.sn, pvi := st.pvi + 1,
              pvvs := some ((st.pvvs.getD (List.replicate maxPV [])).set st.pvi []),
              captures := st.captures + 1,
              acquires := st.acquires + (if st.pvvs = none then 1 else 0),
              visited := st.visited ++ [j],
              saveEligible := st.saveEligible } .top := by
    simp only [mstep, hget, hvar, hseg, List.length_nil, Nat.add_zero, if_pos hlt]
  exact ⟨_, hstep, rfl, rfl, rfl⟩

/-- C10: resolved variable values are published only into a
pre-existing store: when the request carries no store, a match (even a
successful one that captured values) leaves the store absent, and
PathVars reads back nil; the store is created only by the configure
step, which attaches an empty store exactly when none is present and
returns the request unchanged otherwise. -/
theorem c10_publish_only_into_existing_store :
    (∀ (mux : Mux) (t : Tree) (path : Str) (r : Request) (fuel : Nat)
        (res : MatchResult),
      r.store = none →
      matchT mux t path r fuel = .ok res →
      res.store = none ∧ pathVarsOf r = none) ∧
    (∀ (r : Request) (s : List (Str × Str)), r.store = some s →
      configureRequestToStorePathVars r = r) ∧
    (∀ r : Request, r.store = none →
      configureRequestToStorePathVars r = { r with store := some [] }) := by
  refine ⟨?_, ?_, ?_⟩
  · intro mux t path r fuel res hs heq
    unfold matchT at heq
    rw [hs] at heq
    dsimp only at heq
    cases hrun : mrun t.nodes path r.method mux.maxPathVars fuel
        { si := 0, cn := 0, sn := none, pvi := 0, pvvs := none, captures := 0,
          acquires := 0, visited := [0], saveEligible := [] } PC.top with
    | fuelOut => rw [hrun] at heq; cases heq
    | panicked => rw [hrun] at heq; cases heq
    | failure st =>
      rw [hrun] at heq
      dsimp only at heq
      cases heq
      exact ⟨rfl, by simp [pathVarsOf, hs]⟩
    | success ht st =>
      rw [hrun] at heq
      dsimp only at heq
      by_cases hn : ht.pathVarNames.length > 0
      · rw [if_pos hn] at heq
        cases heq
        exact ⟨rfl, by simp [pathVarsOf, hs]⟩
      · rw [if_neg hn] at heq
        cases heq
        exact ⟨rfl, by simp [pathVarsOf, hs]⟩
  · intro r s hs
    simp [configureRequestToStorePathVars, hs]
  · intro r hs
    simp [configureRequestToStorePathVars, hs]

/-- The node arena of the muxVarX tree. -/
def c9Nodes : List Node :=
  match muxVarX with
  | .ok m => (m.tree.getD ⟨[rootNode]⟩).nodes
  | .error _ => [rootNode]

/-- A matcher state sitting at the /a/ node of that tree with the
whole request path /a/ already consumed. -/
def c9St : MSt :=
  { si := 3, cn := 1, sn := none, pvi := 0, pvvs := none,
    captures := 0, acquires := 0, visited := [0, 1], saveEligible := [] }

/-- C9 witness: at the /a/ node with nothing left before the end of
the path, the variable step still fires, entering the variable child
and recording the empty string. -/
theorem c9_witness :
    ∃ st2, mstep c9Nodes (bytesOf "/a/") bGET 1 c9St .tryVar = .next st2 .top ∧
      st2.cn = 2 ∧ st2.si = c9St.si ∧
      st2.pvvs = some ((c9St.pvvs.getD (List.replicate 1 [])).set c9St.pvi []) :=
  c9_variable_matches_empty_segment.1 c9Nodes (bytesOf "/a/") bGET 1 c9St
    ((getNode c9Nodes 1).getD rootNode) 2 (by decide) (by decide) (by decide)
    (by decide)

/-- The mux behind muxVarX. -/
def muxVarXv : Mux :=
  match muxVarX with
  | .ok m => m
  | .error _ => newServeMux

/-- The hostless tree of muxVarX. -/
def treeVarX : Tree := muxVarXv.tree.getD ⟨[rootNode]⟩

/-- A store-less request for /a/zz. -/
def reqC10 : Request :=
  { method := bGET, host := [], urlPath := bytesOf "/a/zz",
    rawQuery := [], store := none }

/-- The match result of that request. -/
def resC10 : MatchResult :=
  match matchT muxVarXv treeVarX (bytesOf "/a/zz") reqC10 200 with
  | .ok r => r
  | _ => { res := .notFound, store := none, captures := 0, acquires := 0,
           releases := 0, visited := [], saveEligible := [], snFinal := none }

/-- C10 witness: a successful capturing match on a store-less request
leaves the store absent and PathVars reads nil. -/
theorem c10_witness : resC10.store = none ∧ pathVarsOf reqC10 = none :=
  c10_publish_only_into_existing_store.1 muxVarXv treeVarX (bytesOf "/a/zz")
    reqC10 200 resC10 (by decide) (by decide)

/-- C1: precedence among the three child kinds is strict and total.
At any node the step relation enters a present matching static child
first; with no matching static child it moves to the variable tier and
enters a present variable child; with no variable child it moves to
the wildcard tier and enters a present wildcard child.  Consequently,
for the trio /a/b, /a/{x}, /a/{y...} registered in every one of the
six possible orders, /a/b resolves to the static handler, /a/c to the
variable handler, and /a/c/d to the wildcard handler. -/
theorem c1_precedence_static_var_wildcard :
    (∀ (nodes : List Node) (path method : Str) (maxPV : Nat) (st : MSt)
        (nd : Node) (b : Nat) (rest2 : Str) (j : Nat),
      getNode nodes st.cn = some nd →
      nd.typ = .nonvar →
      lcpLen (path.drop st.si) nd.pfx = nd.pfx.length →
      path.drop (st.si + nd.pfx.length) = b :: rest2 →
      nd.nonvarChildren.get? b = some (some j) →
      ∃ st2, mstep nodes path method maxPV st .top = .next st2 .top ∧
        st2.cn = j ∧ st2.pvi = st.pvi ∧ st2.captures = st.captures) ∧
    (∀ (nodes : List Node) (path method : Str) (maxPV : Nat) (st : MSt)
        (nd : Node) (b : Nat) (rest2 : Str),
      getNode nodes st.cn = some nd →
      nd.typ = .nonvar →
      lcpLen (path.drop st.si) nd.pfx = nd.pfx.length →
      path.drop (st.si + nd.pfx.length) = b :: rest2 →
      nd.nonvarChildren.get? b = some none →
      ∃ st2, mstep nodes path method maxPV st .top = .next st2 .tryVar ∧
        st2.cn = st.cn ∧ st2.pvi = st.pvi ∧ st2.captures = st.captures) ∧
    (∀ (nodes : List Node) (path method : Str) (maxPV : Nat) (st : MSt)
        (nd : Node) (j : Nat),
      getNode nodes st.cn = some nd →
      nd.unmodifiedVarChild = some j →
      st.pvi < (st.pvvs.getD (List.replicate maxPV [])).length →
      ∃ st2, mstep nodes path method maxPV st .tryVar = .next st2 .top ∧
        st2.cn = j ∧ st2.captures = st.captures + 1) ∧
    (∀ (nodes : List Node) (path method : Str) (maxPV : Nat) (st : MSt)
        (nd : Node),
      getNode nodes st.cn = some nd →
      nd.unmodifiedVarChild = none →
      mstep nodes path method maxPV st .tryVar = .next st .tryWildcard) ∧
    (∀ (nodes : List Node) (path method : Str) (maxPV : Nat) (st : MSt)
        (nd wnd : Node) (j : Nat),
      getNode nodes st.cn = some nd →
      nd.ellipsisModifiedVarChild = some j →
      st.pvi < (st.pvvs.getD (List.replicate maxPV [])).length →
      getNode nodes j = some wnd →
      ∃ st2, (mstep nodes path method maxPV st .tryWildcard =
          .next st2 (.backtrack .ellipsisModifiedVar) ∨
        ∃ ht, mstep nodes path method maxPV st .tryWildcard = .success ht st2) ∧
        st2.cn = j) ∧
    ((∀ l ∈ trioOrders,
        resOf (runMuxOn (buildMux l) bGET (bytesOf "/a/b") none) =
          some (.found (.user 1) patStat)) ∧
      (∀ l ∈ trioOrders,
        resOf (runMuxOn (buildMux l) bGET (bytesOf "/a/c") none) =
          some (.found (.user 2) patVarX)) ∧
      (∀ l ∈ trioOrders,
        resOf (runMuxOn (buildMux l) bGET (bytesOf "/a/c/d") none) =
          some (.found (.user 3) patWildY))) := by
  refine ⟨?_, ?_, ?_, ?_, ?_, by decide⟩
  · intro nodes path method maxPV st nd b rest2 j hget htyp hlcp hrem htbl
    refine ⟨{ si := st.si + nd.pfx.length, cn := j, sn := st.sn,
              pvi := st.pvi, pvvs := st.pvvs, captures := st.captures,
              acquires := st.acquires, visited := st.visited ++ [j],
              saveEligible := st.saveEligible }, ?_, rfl, rfl, rfl⟩
    simp only [mstep, hget, htyp, hlcp, hrem, htbl, if_true, if_false,
      ne_eq, not_true_eq_false, ite_false, reduceCtorEq, false_and, if_neg,
      not_false_eq_true]
  · intro nodes path method maxPV st nd b rest2 hget htyp hlcp hrem htbl
    refine ⟨{ si := st.si + nd.pfx.length, cn := st.cn, sn := st.sn,
              pvi := st.pvi, pvvs := st.pvvs, captures := st.captures,
              acquires := st.acquires, visited := st.visited,
              saveEligible := st.saveEligible }, ?_, rfl, rfl, rfl⟩
    simp only [mstep, hget, htyp, hlcp, hrem, htbl, if_true, if_false,
      ne_eq, not_true_eq_false, ite_false, reduceCtorEq, false_and, if_neg,
      not_false_eq_true]
  · intro nodes path method maxPV st nd j hget hvar hlt
    refine ⟨{ si := st.si + ((path.drop st.si).takeWhile (· ≠ slashB)).length,
              cn := j, sn := st.sn, pvi := st.pvi + 1,
              pvvs := some ((st.pvvs.getD (List.replicate maxPV [])).set st.pvi
                ((path.drop st.si).takeWhile (· ≠ slashB))),
              captures := st.captures + 1,
              acquires := st.acquires + (if st.pvvs = none then 1 else 0),
              visited := st.visited ++ [j],
              saveEligible := st.saveEligible }, ?_, rfl, rfl⟩
    simp only [mstep, hget, hvar, if_pos hlt]
  · intro nodes path method maxPV st nd hget hvar
    simp only [mstep, hget, hvar]
  · intro nodes path method maxPV st nd wnd j hget hwild hlt hwnd
    cases hres : wnd.handlerTupleByMethod method with
    | some ht =>
      refine ⟨{ si := st.si + (path.drop st.si).length, cn := j,
                sn := st.sn.orElse (fun _ => some j), pvi := st.pvi + 1,
                pvvs := some ((st.pvvs.getD (List.replicate maxPV [])).set st.pvi
                  (path.drop st.si)),
                captures := st.captures + 1,
                acquires := st.acquires + (if st.pvvs = none then 1 else 0),
                visited := st.visited ++ [j],
                saveEligible := st.saveEligible ++ [j] }, .inr ⟨ht, ?_⟩, rfl⟩
      simp only [mstep, hget, hwild, if_pos hlt, hwnd, hres]
    | none =>
      refine ⟨{ si := st.si + (path.drop st.si).length, cn := j,
                sn := st.sn.orElse (fun _ => some j), pvi := st.pvi + 1,
                pvvs := some ((st.pvvs.getD (List.replicate maxPV [])).set st.pvi
                  (path.drop st.si)),
                captures := st.captures + 1,
                acquires := st.acquires + (if st.pvvs = none then 1 else 0),
                visited := st.visited ++ [j],
                saveEligible := st.saveEligible ++ [j] }, .inl ?_, rfl⟩
      simp only [mstep, hget, hwild, if_pos hlt, hwnd, hres]

/-- The node arena of the muxGetA tree. -/
def c1Nodes : List Node :=
  match muxGetA with
  | .ok m => (m.tree.getD ⟨[rootNode]⟩).nodes
  | .error _ => [rootNode]

/-- The initial matcher state. -/
def stInitC1 : MSt :=
  { si := 0, cn := 0, sn := none, pvi := 0, pvvs := none,
    captures := 0, acquires := 0, visited := [0], saveEligible := [] }

/-- C1 witness: at the root of the GET /a tree, the matching static
child is entered first. -/
theorem c1_witness :
    ∃ st2, mstep c1Nodes (bytesOf "/a") bGET 0 stInitC1 .top = .next st2 .top ∧
      st2.cn = 1 ∧ st2.pvi = stInitC1.pvi ∧ st2.captures = stInitC1.captures :=
  c1_precedence_static_var_wildcard.1 c1Nodes (bytesOf "/a") bGET 0 stInitC1
    ((getNode c1Nodes 0).getD rootNode) 47 (bytesOf "a") 1
    (by decide) (by decide) (by decide) (by decide) (by decide)

/-- At a found index, the dropped suffix starts with a byte satisfying
the predicate. -/
theorem findIdx_drop_head :
    ∀ (l : List Nat) (i : Nat), l.findIdx? (· = slashB) = some i →
      (l.drop i).headD 0 = slashB := by
  intro l
  induction l with
  | nil => intro i h; simp [List.findIdx?] at h
  | cons b tl ih =>
    intro i h
    rw [List.findIdx?_cons] at h
    by_cases hb : b = slashB
    · simp [hb] at h
      subst h
      simp [hb]
    · simp [hb] at h
      obtain ⟨i2, h2, hi⟩ := h
      subst hi
      simpa using ih i2 h2

/-- The head of an append with a nonempty left part. -/
theorem headD_append_left (a b : Str) (d : Nat) (ha : a ≠ []) :
    (a ++ b).headD d = a.headD d := by
  cases a with
  | nil => exact absurd rfl ha
  | cons x xs => simp

/-- The first element triple reported by the walk carries the
accumulated slash run: its slash field keeps the head of a non-empty
accumulator, and starts with a slash when the accumulator is empty
but the input starts with one. -/
theorem walkTriples_first_rps :
    ∀ (fuel : Nat) (p : Str) (i : Nat) (rps rps0 e0 : Str) (i0 : Nat)
      (rest : List (Str × Str × Nat)),
      walkTriples fuel p i rps = (rps0, e0, i0) :: rest →
      (rps ≠ [] → rps0.headD 0 = rps.headD 0) ∧
      (rps = [] → p.headD 0 = slashB → rps0.headD 0 = slashB) := by
  intro fuel
  induction fuel with
  | zero => intro p i rps rps0 e0 i0 rest h; simp [walkTriples] at h
  | succ fuel ih =>
    intro p i rps rps0 e0 i0 rest h
    cases p with
    | nil => simp [walkTriples] at h
    | cons b tl =>
      rw [walkTriples] at h
      by_cases hb : b = slashB
      · rw [if_pos hb] at h
        have ihh := ih tl (i + 1) (rps ++ [slashB]) rps0 e0 i0 rest h
        constructor
        · intro hne
          rw [ihh.1 (by simp), headD_append_left _ _ _ hne]
        · intro hemp hhead
          rw [ihh.1 (by simp), hemp]
          simp
      · rw [if_neg hb] at h
        cases h
        constructor
        · intro _; rfl
        · intro hemp hhead
          simp at hhead
          exact absurd hhead hb

/-- A successful normalization walk only ever extends the denamed
path it was handed. -/
theorem normWalk_den_ext :
    ∀ (ts : List (Str × Str × Nat)) (fullLen : Nat) (den : Str)
      (names : List Str) (den2 : Str) (nm2 : List Str),
      normWalk fullLen ts den names = .ok (den2, nm2) →
      ∃ ext, den2 = den ++ ext := by
  intro ts
  induction ts with
  | nil =>
    intro fullLen den names den2 nm2 h
    rw [normWalk] at h
    cases h
    exact ⟨[], by simp⟩
  | cons t rest ih =>
    intro fullLen den names den2 nm2 h
    obtain ⟨rps, elem, idx⟩ := t
    rw [normWalk] at h
    split at h
    · obtain ⟨ext, hext⟩ := ih _ _ _ _ _ h
      exact ⟨rps ++ elem ++ ext, by simp [hext]⟩
    · split at h
      · cases h
      · cases hcut : List.findIdx? (fun c => decide (c = 46) || decide (c = 36))
            (List.drop 1 elem).dropLast with
        | none =>
          simp only [hcut] at h
          split at h
          · cases h
          · split at h
            · cases h
            · split at h
              · obtain ⟨ext, hext⟩ := ih _ _ _ _ _ h
                exact ⟨rps ++ varMarker ++ ext, by simp [hext]⟩
              · split at h
                · split at h
                  · cases h
                  · obtain ⟨ext, hext⟩ := ih _ _ _ _ _ h
                    exact ⟨rps ++ wildMarker ++ ext, by simp [hext]⟩
                · split at h
                  · split at h
                    · cases h
                    · split at h
                      · cases h
                      · cases h
                        exact ⟨rps, rfl⟩
                  · cases h
        | some i =>
          simp only [hcut] at h
          split at h
          · cases h
          · split at h
            · cases h
            · split at h
              · obtain ⟨ext, hext⟩ := ih _ _ _ _ _ h
                exact ⟨rps ++ varMarker ++ ext, by simp [hext]⟩
              · split at h
                · split at h
                  · cases h
                  · obtain ⟨ext, hext⟩ := ih _ _ _ _ _ h
                    exact ⟨rps ++ wildMarker ++ ext, by simp [hext]⟩
                · split at h
                  · split at h
                    · cases h
                    · split at h
                      · cases h
                      · cases h
                        exact ⟨rps, rfl⟩
                  · cases h

/-- A successful normalization walk on a non-empty element list
produces the first element's slash run followed by some extension. -/
theorem normWalk_ok_head :
    ∀ (rps elem : Str) (idx : Nat) (rest : List (Str × Str × Nat))
      (fullLen : Nat) (den : Str) (names : List Str) (den2 : Str)
      (nm2 : List Str),
      normWalk fullLen ((rps, elem, idx) :: rest) den names = .ok (den2, nm2) →
      ∃ ext, den2 = den ++ rps ++ ext := by
  intro rps elem idx rest fullLen den names den2 nm2 h
  rw [normWalk] at h
  split at h
  · obtain ⟨ext, hext⟩ := normWalk_den_ext _ _ _ _ _ _ h
    exact ⟨elem ++ ext, by simp [hext]⟩
  · split at h
    · cases h
    · cases hcut : List.findIdx? (fun c => decide (c = 46) || decide (c = 36))
          (List.drop 1 elem).dropLast with
      | none =>
        simp only [hcut] at h
        split at h
        · cases h
        · split at h
          · cases h
          · split at h
            · obtain ⟨ext, hext⟩ := normWalk_den_ext _ _ _ _ _ _ h
              exact ⟨varMarker ++ ext, by simp [hext]⟩
            · split at h
              · split at h
                · cases h
                · obtain ⟨ext, hext⟩ := normWalk_den_ext _ _ _ _ _ _ h
                  exact ⟨wildMarker ++ ext, by simp [hext]⟩
              · split at h
                · split at h
                  · cases h
                  · split at h
                    · cases h
                    · cases h
                      exact ⟨[], by simp⟩
                · cases h
      | some i =>
        simp only [hcut] at h
        split at h
        · cases h
        · split at h
          · cases h
          · split at h
            · obtain ⟨ext, hext⟩ := normWalk_den_ext _ _ _ _ _ _ h
              exact ⟨varMarker ++ ext, by simp [hext]⟩
            · split at h
              · split at h
                · cases h
                · obtain ⟨ext, hext⟩ := normWalk_den_ext _ _ _ _ _ _ h
                  exact ⟨wildMarker ++ ext, by simp [hext]⟩
              · split at h
                · split at h
                  · cases h
                  · split at h
                    · cases h
                    · cases h
                      exact ⟨[], by simp⟩
                · cases h

/-- The first element triple of a path whose head is a slash carries a
slash-headed slash run. -/
theorem pathElems_first_rps (p rps0 e0 : Str) (i0 : Nat)
    (rest : List (Str × Str × Nat)) (h : pathElems p = (rps0, e0, i0) :: rest)
    (hp : p.headD 0 = slashB) : rps0.headD 0 = slashB := by
  rw [pathElems] at h
  exact (walkTriples_first_rps (p.length + 1) p 0 [] rps0 e0 i0 rest h).2 rfl hp

/-- A normalization run over the elements of a slash-headed path that
succeeds with a non-empty denamed path yields a slash-headed path. -/
theorem normWalk_pathElems_head (p : Str) (fullLen : Nat) (den2 : Str)
    (nm2 : List Str) (hp : p.headD 0 = slashB)
    (h : normWalk fullLen (pathElems p) [] [] = .ok (den2, nm2))
    (hne : den2 ≠ []) : den2.headD 0 = slashB := by
  cases helems : pathElems p with
  | nil =>
    rw [helems, normWalk] at h
    cases h
    exact absurd rfl hne
  | cons t rest =>
    obtain ⟨rps0, e0, i0⟩ := t
    rw [helems] at h
    obtain ⟨ext, hext⟩ := normWalk_ok_head _ _ _ _ _ _ _ _ _ h
    have hrps0 : rps0.headD 0 = slashB := pathElems_first_rps p rps0 e0 i0 rest helems hp
    have hrps0ne : rps0 ≠ [] := by
      intro hemp
      rw [hemp] at hrps0
      simp [slashB] at hrps0
    rw [hext]
    simp only [List.nil_append]
    rw [headD_append_left _ _ _ hrps0ne]
    exact hrps0

/-- A non-empty path produced by the host/path stage starts with a
slash. -/
theorem parseHostPath_path_head :
    ∀ (method hostpath : Str) (pp : ParsedPattern),
      parseHostPath method hostpath = .ok pp →
      pp.path ≠ [] → pp.path.headD 0 = slashB := by
  intro method hostpath pp h hpne
  rw [parseHostPath] at h
  split at h
  · cases h
  · cases hidx : hostpath.findIdx? (· = slashB) with
    | none =>
      simp only [hidx] at h
      split at h
      · cases h
      · split at h
        · cases h
          exact absurd rfl hpne
        · exact absurd trivial (by assumption)
    | some i =>
      simp only [hidx] at h
      have hhead : (hostpath.drop i).headD 0 = slashB := findIdx_drop_head _ _ hidx
      have hp0ne : hostpath.drop i ≠ [] := by
        intro hemp
        rw [hemp] at hhead
        simp [slashB] at hhead
      split at h
      · cases h
      · have hp1 : (if (hostpath.drop i).getLastD 0 = slashB then
            hostpath.drop i ++ wildMarker else hostpath.drop i).headD 0 = slashB := by
          split
          · rw [headD_append_left _ _ _ hp0ne]
            exact hhead
          · exact hhead
        cases hnw : normWalk
            (if (hostpath.drop i).getLastD 0 = slashB then
              hostpath.drop i ++ wildMarker else hostpath.drop i).length
            (pathElems (if (hostpath.drop i).getLastD 0 = slashB then
              hostpath.drop i ++ wildMarker else hostpath.drop i)) [] [] with
        | error e => rw [hnw] at h; cases h
        | ok pr =>
          obtain ⟨den, names⟩ := pr
          rw [hnw] at h
          cases h
          exact normWalk_pathElems_head _ _ _ _ hp1 hnw hpne

/-- C8 (amended): parsing fails with a pattern-syntax fault when host
and path are both absent (an empty pattern body, with or without a
method); a pattern consisting only of a host is accepted with an empty
path; and whenever the parsed path is non-empty it begins with a
slash by construction. -/
theorem c8_amended_path_requirements :
    parsePatternCore [] =
      .error (.syn "a pattern must have at least one of the host or path") ∧
    parsePatternCore (bytesOf "GET ") =
      .error (.syn "a pattern must have at least one of the host or path") ∧
    parsePatternCore (bytesOf "example.com") =
      .ok { method := [], host := bytesOf "example.com", path := [],
            pathVarNames := [] } ∧
    (∀ (p : Str) (pp : ParsedPattern),
      parsePatternCore p = .ok pp → pp.path ≠ [] → pp.path.headD 0 = slashB) := by
  refine ⟨by decide, by decide, by decide, ?_⟩
  intro p pp h hpne
  rw [parsePatternCore] at h
  split at h
  · cases h
  · exact parseHostPath_path_head _ _ _ h hpne

/-- Lcp with an empty second string is zero. -/
theorem lcpLen_nil (s : Str) : lcpLen s [] = 0 := by
  cases s <;> rfl

/-- Prepending a save event: the or-else update keeps the first
recorded event at the head of the event list. -/
theorem snEligible_update (sn : Option Nat) (el : List Nat) (k : Nat)
    (h : sn = el.head?) :
    sn.orElse (fun _ => some k) = (el ++ [k]).head? := by
  cases el with
  | nil => cases h; rfl
  | cons a tl => cases h; rfl

/-- The matcher invariant behind the 405-versus-404 decision: the
saved fallback node is always the first save-eligible event, and the
backtracking block with a static from-type only runs at a node with a
non-empty prefix. -/
def SInvP (nodes : List Node) (st : MSt) (pc : PC) : Prop :=
  st.sn = st.saveEligible.head? ∧
  (pc = .backtrack .nonvar → ∃ nd, getNode nodes st.cn = some nd ∧ nd.pfx ≠ [])

/-- Roots (nodes without a parent) carry empty prefixes. -/
def RootsEmptyPfx (nodes : List Node) : Prop :=
  ∀ i nd, getNode nodes i = some nd → nd.parent = none → nd.pfx = []

/-- Decidable form of the root-prefix property. -/
def rootsEmptyB (nodes : List Node) : Bool :=
  nodes.all (fun nd => nd.parent.isSome || nd.pfx.isEmpty)

/-- The decidable root check implies the root-prefix property. -/
theorem rootsEmptyB_spec (nodes : List Node) (h : rootsEmptyB nodes = true) :
    RootsEmptyPfx nodes := by
  intro i nd hget hpar
  simp only [getNode] at hget
  have hmem : nd ∈ nodes := List.get?_mem hget
  have hall := (List.all_eq_true.mp h) nd hmem
  rw [hpar] at hall
  simpa using hall

/-- One matcher step preserves the save invariant, and a failing exit
reports the first save-eligible event as the saved node. -/
theorem c2_step_all (nodes : List Node) (path method : Str) (maxPV : Nat)
    (st : MSt) (pc : PC) (r : StepRes) (hroots : RootsEmptyPfx nodes)
    (hinv : SInvP nodes st pc)
    (h : mstep nodes path method maxPV st pc = r) :
    (∀ st2 pc2, r = .next st2 pc2 → SInvP nodes st2 pc2) ∧
    (∀ st2, r = .failure st2 → st2.sn = st2.saveEligible.head?) := by
  cases pc with
  | top =>
    simp only [mstep] at h
    cases hget : getNode nodes st.cn with
    | none =>
      rw [hget] at h
      exact ⟨fun st2 pc2 hr => (by rw [← h] at hr; cases hr),
             fun st2 hr => (by rw [← h] at hr; cases hr)⟩
    | some nd =>
      rw [hget] at h
      dsimp only at h
      split at h
      · rename_i x heq
        refine ⟨fun st2 pc2 hr => ?_, fun st2 hr => (by rw [← h] at hr; cases hr)⟩
        rw [← h] at hr
        cases hr
        refine ⟨hinv.1, fun _ => ⟨nd, hget, ?_⟩⟩
        intro hpfx
        by_cases ht : nd.typ = .nonvar
        · rw [if_pos ht, hpfx] at heq
          simp [lcpLen_nil] at heq
        · rw [if_neg ht] at heq
          cases heq
      · split at h
        · split at h
          · exact ⟨fun st2 pc2 hr => (by rw [← h] at hr; cases hr),
                   fun st2 hr => (by rw [← h] at hr; cases hr)⟩
          · refine ⟨fun st2 pc2 hr => ?_, fun st2 hr => (by rw [← h] at hr; cases hr)⟩
            rw [← h] at hr
            cases hr
            exact ⟨snEligible_update _ _ _ hinv.1, by intro hcon; cases hcon⟩
        · split at h
          · refine ⟨fun st2 pc2 hr => ?_, fun st2 hr => (by rw [← h] at hr; cases hr)⟩
            rw [← h] at hr
            cases hr
            exact ⟨hinv.1, by intro hcon; cases hcon⟩
          · split at h
            · exact ⟨fun st2 pc2 hr => (by rw [← h] at hr; cases hr),
                     fun st2 hr => (by rw [← h] at hr; cases hr)⟩
            · refine ⟨fun st2 pc2 hr => ?_, fun st2 hr => (by rw [← h] at hr; cases hr)⟩
              rw [← h] at hr
              cases hr
              exact ⟨hinv.1, by intro hcon; cases hcon⟩
            · refine ⟨fun st2 pc2 hr => ?_, fun st2 hr => (by rw [← h] at hr; cases hr)⟩
              rw [← h] at hr
              cases hr
              exact ⟨hinv.1, by intro hcon; cases hcon⟩
  | tryVar =>
    simp only [mstep] at h
    cases hget : getNode nodes st.cn with
    | none =>
      rw [hget] at h
      exact ⟨fun st2 pc2 hr => (by rw [← h] at hr; cases hr),
             fun st2 hr => (by rw [← h] at hr; cases hr)⟩
    | some nd =>
      rw [hget] at h
      dsimp only at h
      split at h
      · refine ⟨fun st2 pc2 hr => ?_, fun st2 hr => (by rw [← h] at hr; cases hr)⟩
        rw [← h] at hr
        cases hr
        exact ⟨hinv.1, by intro hcon; cases hcon⟩
      · split at h
        · refine ⟨fun st2 pc2 hr => ?_, fun st2 hr => (by rw [← h] at hr; cases hr)⟩
          rw [← h] at hr
          cases hr
          exact ⟨hinv.1, by intro hcon; cases hcon⟩
        · exact ⟨fun st2 pc2 hr => (by rw [← h] at hr; cases hr),
                 fun st2 hr => (by rw [← h] at hr; cases hr)⟩
  | tryWildcard =>
    simp only [mstep] at h
    cases hget : getNode nodes st.cn with
    | none =>
      rw [hget] at h
      exact ⟨fun st2 pc2 hr => (by rw [← h] at hr; cases hr),
             fun st2 hr => (by rw [← h] at hr; cases hr)⟩
    | some nd =>
      rw [hget] at h
      dsimp only at h
      split at h
      · refine ⟨fun st2 pc2 hr => ?_, fun st2 hr => (by rw [← h] at hr; cases hr)⟩
        rw [← h] at hr
        cases hr
        exact ⟨hinv.1, by intro hcon; cases hcon⟩
      · split at h
        · split at h
          · exact ⟨fun st2 pc2 hr => (by rw [← h] at hr; cases hr),
                   fun st2 hr => (by rw [← h] at hr; cases hr)⟩
          · split at h
            · exact ⟨fun st2 pc2 hr => (by rw [← h] at hr; cases hr),
                     fun st2 hr => (by rw [← h] at hr; cases hr)⟩
            · refine ⟨fun st2 pc2 hr => ?_, fun st2 hr => (by rw [← h] at hr; cases hr)⟩
              rw [← h] at hr
              cases hr
              exact ⟨snEligible_update _ _ _ hinv.1, by intro hcon; cases hcon⟩
        · exact ⟨fun st2 pc2 hr => (by rw [← h] at hr; cases hr),
                 fun st2 hr => (by rw [← h] at hr; cases hr)⟩
  | backtrack fnt =>
    simp only [mstep] at h
    cases hget : getNode nodes st.cn with
    | none =>
      rw [hget] at h
      exact ⟨fun st2 pc2 hr => (by rw [← h] at hr; cases hr),
             fun st2 hr => (by rw [← h] at hr; cases hr)⟩
    | some nd =>
      rw [hget] at h
      dsimp only at h
      split at h
      · exact ⟨fun st2 pc2 hr => (by rw [← h] at hr; cases hr),
               fun st2 hr => (by rw [← h] at hr; cases hr)⟩
      · split at h
        · split at h
          · refine ⟨fun st2 pc2 hr => ?_, fun st2 hr => (by rw [← h] at hr; cases hr)⟩
            rw [← h] at hr
            cases hr
            exact ⟨hinv.1, by intro hcon; cases hcon⟩
          · refine ⟨fun st2 pc2 hr => ?_, fun st2 hr => (by rw [← h] at hr; cases hr)⟩
            rw [← h] at hr
            cases hr
            exact ⟨hinv.1, by intro hcon; cases hcon⟩
          · refine ⟨fun st2 pc2 hr => (by rw [← h] at hr; cases hr),
                    fun st2 hr => ?_⟩
            rw [← h] at hr
            cases hr
            exact hinv.1
        · rename_i hpar
          refine ⟨fun st2 pc2 hr => (by rw [← h] at hr; cases hr),
                  fun st2 hr => ?_⟩
          rw [← h] at hr
          cases hr
          by_cases hf : fnt = .nonvar
          · subst hf
            obtain ⟨nd2, hget2, hpfx2⟩ := hinv.2 rfl
            rw [hget] at hget2
            cases hget2
            exact absurd (hroots _ _ hget hpar) hpfx2
          · simp only [if_neg hf]
            exact hinv.1

/-- Over any number of steps, a failing match run reports the first
save-eligible event as the saved node. -/
theorem c2_run_fail (nodes : List Node) (path method : Str) (maxPV : Nat)
    (hroots : RootsEmptyPfx nodes) :
    ∀ (fuel : Nat) (st : MSt) (pc : PC) (st2 : MSt), SInvP nodes st pc →
      mrun nodes path method maxPV fuel st pc = .failure st2 →
      st2.sn = st2.saveEligible.head? := by
  intro fuel
  induction fuel with
  | zero =>
    intro st pc st2 hinv h
    rw [mrun] at h
    cases h
  | succ fuel ih =>
    intro st pc st2 hinv h
    rw [mrun] at h
    cases hstep : mstep nodes path method maxPV st pc with
    | next st3 pc3 =>
      rw [hstep] at h
      exact ih st3 pc3 st2
        ((c2_step_all nodes path method maxPV st pc _ hroots hinv hstep).1 st3 pc3 rfl) h
    | success ht st3 => rw [hstep] at h; cases h
    | failure st3 =>
      rw [hstep] at h
      cases h
      exact (c2_step_all nodes path method maxPV st pc _ hroots hinv hstep).2 st2 rfl
    | panicked => rw [hstep] at h; cases h

/-- C2 counterexample: with only GET /a registered, the request
GET /ab fails and is answered NotFound, although the node holding the
GET /a handler (arena index 1) was visited along the way and carries a
handler — the claim would demand MethodNotAllowed here. -/
theorem c2_counterexample_visited_handler_not_405 :
    resOf (runMuxOn muxGetA bGET (bytesOf "/ab") none) = some .notFound ∧
    visitedOf (runMuxOn muxGetA bGET (bytesOf "/ab") none) = some [0, 1, 0] ∧
    ((getNode c1Nodes 1).map Node.hasAtLeastOneHandler) = some true := by
  decide

/-- C2 (amended): when the search fails, the answer is
MethodNotAllowed exactly when a save-eligible event occurred — a node
reached with the entire remaining path consumed while carrying at
least one handler, or a wildcard child entered — and the first such
node carries a handler; otherwise the answer is NotFound.  Nodes
merely visited with path left over do not count.  In particular,
registering only POST /r and requesting GET /r yields
MethodNotAllowed, while requesting DELETE /unregistered yields
NotFound. -/
theorem c2_amended_method_not_allowed_iff_save_event :
    (∀ (mux : Mux) (t : Tree) (path : Str) (r : Request) (fuel : Nat)
        (res : MatchResult),
      rootsEmptyB t.nodes = true →
      matchT mux t path r fuel = .ok res →
      (res.res = .methodNotAllowed ∨ res.res = .notFound) →
      (res.res = .methodNotAllowed ↔
        ∃ k nd, res.saveEligible.head? = some k ∧ getNode t.nodes k = some nd ∧
          nd.hasAtLeastOneHandler = true)) ∧
    resOf (runMuxOn muxPostR bGET (bytesOf "/r") none) = some .methodNotAllowed ∧
    resOf (runMuxOn muxPostR (bytesOf "DELETE") (bytesOf "/unregistered") none) =
      some .notFound := by
  refine ⟨?_, by decide, by decide⟩
  intro mux t path r fuel res hrootsB heq hfail
  have hroots := rootsEmptyB_spec _ hrootsB
  unfold matchT at heq
  dsimp only at heq
  cases hrun : mrun t.nodes path r.method mux.maxPathVars fuel
      { si := 0, cn := 0, sn := none, pvi := 0, pvvs := none, captures := 0,
        acquires := 0, visited := [0], saveEligible := [] } PC.top with
  | fuelOut => rw [hrun] at heq; cases heq
  | panicked => rw [hrun] at heq; cases heq
  | success ht st =>
    rw [hrun] at heq
    dsimp only at heq
    by_cases hn : ht.pathVarNames.length > 0
    · rw [if_pos hn] at heq
      split at heq
      · cases heq
      · cases heq
        cases hfail with
        | inl hc => cases hc
        | inr hc => cases hc
    · rw [if_neg hn] at heq
      cases heq
      cases hfail with
      | inl hc => cases hc
      | inr hc => cases hc
  | failure st =>
    rw [hrun] at heq
    dsimp only at heq
    cases heq
    dsimp only at hfail ⊢
    have hsn : st.sn = st.saveEligible.head? :=
      c2_run_fail t.nodes path r.method mux.maxPathVars hroots fuel _ .top st
        ⟨rfl, by intro hcon; cases hcon⟩ hrun
    constructor
    · intro h405
      cases hk : st.sn with
      | none => simp only [hk] at h405; cases h405
      | some k =>
        simp only [hk] at h405
        cases hknd : getNode t.nodes k with
        | none => simp only [hknd] at h405; cases h405
        | some knd =>
          simp only [hknd] at h405
          by_cases hh : knd.hasAtLeastOneHandler = true
          · exact ⟨k, knd, by rw [← hsn, hk], hknd, hh⟩
          · rw [if_neg hh] at h405
            cases h405
    · intro hex
      obtain ⟨k, knd, hk, hknd, hh⟩ := hex
      rw [← hsn] at hk
      simp only [hk, hknd, if_pos hh]

/-- The mux behind muxPostR. -/
def muxPostRv : Mux :=
  match muxPostR with
  | .ok m => m
  | .error _ => newServeMux

/-- The hostless tree of muxPostR. -/
def treePostR : Tree := muxPostRv.tree.getD ⟨[rootNode]⟩

/-- The request GET /r. -/
def reqPostRGET : Request :=
  { method := bGET, host := [], urlPath := bytesOf "/r", rawQuery := [],
    store := none }

/-- The match result of GET /r against the POST /r tree. -/
def resC2 : MatchResult :=
  match matchT muxPostRv treePostR (bytesOf "/r") reqPostRGET 200 with
  | .ok r => r
  | _ => { res := .notFound, store := none, captures := 0, acquires := 0,
           releases := 0, visited := [], saveEligible := [], snFinal := none }

/-- C2 witness: for the failing GET /r run against a POST /r tree, the
MethodNotAllowed answer coincides with the first save-eligible node
carrying a handler. -/
theorem c2_witness :
    resC2.res = .methodNotAllowed ↔
      ∃ k nd, resC2.saveEligible.head? = some k ∧
        getNode treePostR.nodes k = some nd ∧ nd.hasAtLeastOneHandler = true :=
  c2_amended_method_not_allowed_iff_save_event.1 muxPostRv treePostR
    (bytesOf "/r") reqPostRGET 200 resC2 (by decide) (by decide) (by decide)

/-- The number of variable markers (opening braces) in a tree key. -/
def countMarkers (s : Str) : Nat := (s.filter (· = obr)).length

/-- Marker counting distributes over append. -/
theorem countMarkers_append (a b : Str) :
    countMarkers (a ++ b) = countMarkers a + countMarkers b := by
  simp [countMarkers, List.filter_append]

/-- Association-list lookups return stored pairs. -/
theorem alookup_mem {α : Type} [DecidableEq α] {β : Type} :
    ∀ (l : List (α × β)) (k : α) (v : β), alookup l k = some v → (k, v) ∈ l := by
  intro l
  induction l with
  | nil => intro k v h; simp [alookup] at h
  | cons p rest ih =>
    intro k v h
    rw [alookup] at h
    split at h
    · cases h
      rename_i heqk
      rw [← heqk]
      exact List.mem_cons_self _ _
    · exact List.mem_cons_of_mem _ (ih k v h)

/-- Per-node well-formedness for the pool-accounting argument: every
stored tuple names exactly as many variables as its node's key has
markers, the prefix holds one marker exactly on variable or wildcard
nodes, the key extends the parent's key by the prefix, and every child
of each kind has the matching type and an extending key. -/
def wfC6At (nodes : List Node) (nd : Node) : Bool :=
  nd.handlerTuples.all
    (fun p => p.2.pathVarNames.length == countMarkers nd.key) &&
  (match nd.catchAllHandlerTuple with
   | some t => t.pathVarNames.length == countMarkers nd.key
   | none => true) &&
  (countMarkers nd.pfx == (if nd.typ = .nonvar then 0 else 1)) &&
  (match nd.parent with
   | some p =>
     (match getNode nodes p with
      | some pn => nd.key == pn.key ++ nd.pfx
      | none => true)
   | none => true) &&
  nd.nonvarChildren.all (fun oc =>
    match oc with
    | some j =>
      (match getNode nodes j with
       | some c => c.typ == NType.nonvar && c.key == nd.key ++ c.pfx
       | none => true)
    | none => true) &&
  (match nd.unmodifiedVarChild with
   | some j =>
     (match getNode nodes j with
      | some c => c.typ == NType.unmodifiedVar && c.key == nd.key ++ c.pfx
      | none => true)
   | none => true) &&
  (match nd.ellipsisModifiedVarChild with
   | some j =>
     (match getNode nodes j with
      | some c => c.typ == NType.ellipsisModifiedVar && c.key == nd.key ++ c.pfx
      | none => true)
   | none => true)

/-- Tree-level well-formedness: the root key has no markers and every
node is per-node well-formed. -/
def wfC6B (nodes : List Node) : Bool :=
  (match getNode nodes 0 with
   | some nd => countMarkers nd.key == 0
   | none => true) &&
  nodes.all (wfC6At nodes)

/-- Every looked-up node of a well-formed tree is per-node well-formed. -/
theorem wfC6B_at (nodes : List Node) (h : wfC6B nodes = true) (i : Nat)
    (nd : Node) (hget : getNode nodes i = some nd) : wfC6At nodes nd = true := by
  simp only [wfC6B, Bool.and_eq_true] at h
  refine (List.all_eq_true.mp h.2) nd ?_
  simp only [getNode] at hget
  exact List.get?_mem hget

/-- The root key of a well-formed tree has no markers. -/
theorem wfC6B_root (nodes : List Node) (h : wfC6B nodes = true) (nd : Node)
    (hget : getNode nodes 0 = some nd) : countMarkers nd.key = 0 := by
  simp only [wfC6B, Bool.and_eq_true] at h
  have h1 := h.1
  rw [hget] at h1
  simpa using h1

/-- Prefix marker count by node type. -/
theorem wfAt_pfxmark (nodes : List Node) (nd : Node)
    (h : wfC6At nodes nd = true) :
    countMarkers nd.pfx = if nd.typ = .nonvar then 0 else 1 := by
  simp only [wfC6At, Bool.and_eq_true] at h
  obtain ⟨⟨⟨⟨⟨⟨h1, h2⟩, h3⟩, h4⟩, h5⟩, h6⟩, h7⟩ := h
  simpa using h3

/-- Any tuple resolved at a node names exactly the node's markers. -/
theorem wfAt_tuple (nodes : List Node) (nd : Node)
    (h : wfC6At nodes nd = true) (method : Str) (ht : HandlerTuple)
    (hres : nd.handlerTupleByMethod method = some ht) :
    ht.pathVarNames.length = countMarkers nd.key := by
  simp only [wfC6At, Bool.and_eq_true] at h
  obtain ⟨⟨⟨⟨⟨⟨h1, h2⟩, h3⟩, h4⟩, h5⟩, h6⟩, h7⟩ := h
  cases halk : alookup nd.handlerTuples method with
  | some ht2 =>
    simp only [Node.handlerTupleByMethod, halk] at hres
    cases hres
    have hmem := alookup_mem _ _ _ halk
    have := (List.all_eq_true.mp h1) _ hmem
    simpa using this
  | none =>
    simp only [Node.handlerTupleByMethod, halk] at hres
    rw [hres] at h2
    simpa using h2

/-- The parent key relation at a node. -/
theorem wfAt_parent (nodes : List Node) (nd : Node)
    (h : wfC6At nodes nd = true) (p : Nat) (pn : Node)
    (hp : nd.parent = some p) (hg : getNode nodes p = some pn) :
    nd.key = pn.key ++ nd.pfx := by
  simp only [wfC6At, Bool.and_eq_true] at h
  obtain ⟨⟨⟨⟨⟨⟨h1, h2⟩, h3⟩, h4⟩, h5⟩, h6⟩, h7⟩ := h
  simp only [hp, hg] at h4
  simpa using h4

/-- Static children are static nodes with extending keys. -/
theorem wfAt_static (nodes : List Node) (nd : Node)
    (h : wfC6At nodes nd = true) (b j : Nat) (c : Node)
    (hb : nd.nonvarChildren.get? b = some (some j))
    (hg : getNode nodes j = some c) :
    c.typ = .nonvar ∧ c.key = nd.key ++ c.pfx := by
  simp only [wfC6At, Bool.and_eq_true] at h
  obtain ⟨⟨⟨⟨⟨⟨h1, h2⟩, h3⟩, h4⟩, h5⟩, h6⟩, h7⟩ := h
  have hmem : (some j) ∈ nd.nonvarChildren := List.get?_mem hb
  have := (List.all_eq_true.mp h5) _ hmem
  simp only [hg] at this
  simpa using this

/-- The variable child is a variable node with an extending key. -/
theorem wfAt_var (nodes : List Node) (nd : Node)
    (h : wfC6At nodes nd = true) (j : Nat) (c : Node)
    (hb : nd.unmodifiedVarChild = some j) (hg : getNode nodes j = some c) :
    c.typ = .unmodifiedVar ∧ c.key = nd.key ++ c.pfx := by
  simp only [wfC6At, Bool.and_eq_true] at h
  obtain ⟨⟨⟨⟨⟨⟨h1, h2⟩, h3⟩, h4⟩, h5⟩, h6⟩, h7⟩ := h
  simp only [hb, hg] at h6
  simpa using h6

/-- The wildcard child is a wildcard node with an extending key. -/
theorem wfAt_wild (nodes : List Node) (nd : Node)
    (h : wfC6At nodes nd = true) (j : Nat) (c : Node)
    (hb : nd.ellipsisModifiedVarChild = some j) (hg : getNode nodes j = some c) :
    c.typ = .ellipsisModifiedVar ∧ c.key = nd.key ++ c.pfx := by
  simp only [wfC6At, Bool.and_eq_true] at h
  obtain ⟨⟨⟨⟨⟨⟨h1, h2⟩, h3⟩, h4⟩, h5⟩, h6⟩, h7⟩ := h
  simp only [hb, hg] at h7
  simpa using h7

/-- The pool-accounting core: the buffer is held exactly when a
capture has happened, and exactly one acquire has happened in that
case. -/
def CoreInv (st : MSt) : Prop :=
  (st.pvvs = none ↔ st.captures = 0) ∧
  (st.acquires = if st.captures = 0 then 0 else 1)

/-- The full pool invariant: the core, the capture depth bounded by
total captures, the current node's marker count bounded by the capture
depth, and (at the loop head while holding a buffer) at least one
marker on the current node's key. -/
def C6Inv (nodes : List Node) (st : MSt) (pc : PC) : Prop :=
  CoreInv st ∧
  st.pvi ≤ st.captures ∧
  (∀ nd, getNode nodes st.cn = some nd → countMarkers nd.key ≤ st.pvi) ∧
  (st.pvvs ≠ none → pc = .top →
    ∀ nd, getNode nodes st.cn = some nd → 1 ≤ countMarkers nd.key)

/-- The parse of GET /a. -/
def ppGetA : ParsedPattern :=
  { method := bytesOf "GET", host := [], path := bytesOf "/a",
    pathVarNames := [] }

/-- C8 witness: the parsed path of GET /a is non-empty and starts
with a slash. -/
theorem c8_witness : ppGetA.path.headD 0 = slashB :=
  c8_amended_path_requirements.2.2.2 (bytesOf "GET /a") ppGetA (by decide)
    (by decide)

/-- The parse of patFooBar. -/
def ppFooBar : ParsedPattern :=
  { method := [], host := [], path := bytesOf "/foo/" ++ varMarker,
    pathVarNames := [bytesOf "bar"] }

/-- The parse of patFooBaz. -/
def ppFooBaz : ParsedPattern :=
  { method := [], host := [], path := bytesOf "/foo/" ++ varMarker,
    pathVarNames := [bytesOf "baz"] }

/-- C4 witness: the general conflict statement applied to the pair
differing only in variable names. -/
theorem c4_witness :
    parsePattern [] patFooBar = .ok (ppFooBar, [(patKey ppFooBar, patFooBar)]) ∧
    parsePattern [(patKey ppFooBar, patFooBar)] patFooBaz =
      .error (.conflict patFooBaz patFooBar) :=
  c4_identical_normalized_keys_conflict.1 patFooBar patFooBaz ppFooBar ppFooBaz
    (by decide) (by decide) (by decide)

/-- One pool acquire happens exactly at the transition from zero to one
capture. -/
theorem acquire_step (pvvs : Option (List Str)) (captures acquires : Nat)
    (h1 : pvvs = none ↔ captures = 0)
    (h2 : acquires = if captures = 0 then 0 else 1) :
    acquires + (if pvvs = none then 1 else 0) = 1 := by
  by_cases hp : pvvs = none
  · rw [h2, if_pos (h1.mp hp), if_pos hp]
  · rw [h2, if_neg (fun hc => hp (h1.mpr hc)), if_neg hp]

/-- One matcher step preserves the pool invariant; at a successful exit
the resolved tuple's name count is positive exactly when the buffer is
held and never exceeds the capture count; at a failing exit the core
accounting still holds. -/
theorem c6_step_all (nodes : List Node) (path method : Str) (maxPV : Nat)
    (st : MSt) (pc : PC) (r : StepRes) (hwf : wfC6B nodes = true)
    (hinv : C6Inv nodes st pc)
    (h : mstep nodes path method maxPV st pc = r) :
    (∀ st2 pc2, r = .next st2 pc2 → C6Inv nodes st2 pc2) ∧
    (∀ ht st2, r = .success ht st2 →
      CoreInv st2 ∧ (st2.pvvs ≠ none → 1 ≤ ht.pathVarNames.length) ∧
      ht.pathVarNames.length ≤ st2.captures) ∧
    (∀ st2, r = .failure st2 → CoreInv st2) := by
  cases pc with
  | top =>
    simp only [mstep] at h
    cases hget : getNode nodes st.cn with
    | none =>
      rw [hget] at h
      exact ⟨fun st2 pc2 hr => (by rw [← h] at hr; cases hr),
             fun ht st2 hr => (by rw [← h] at hr; cases hr),
             fun st2 hr => (by rw [← h] at hr; cases hr)⟩
    | some nd =>
      rw [hget] at h
      dsimp only at h
      have hwfn := wfC6B_at nodes hwf st.cn nd hget
      split at h
      · refine ⟨fun st2 pc2 hr => ?_,
                fun ht st2 hr => (by rw [← h] at hr; cases hr),
                fun st2 hr => (by rw [← h] at hr; cases hr)⟩
        rw [← h] at hr
        cases hr
        exact ⟨hinv.1, hinv.2.1, hinv.2.2.1, fun _ hcon => by cases hcon⟩
      · split at h
        · split at h
          · rename_i heqt
            refine ⟨fun st2 pc2 hr => (by rw [← h] at hr; cases hr),
                    fun ht2 st2 hr => ?_,
                    fun st2 hr => (by rw [← h] at hr; cases hr)⟩
            rw [← h] at hr
            cases hr
            have hnm := wfAt_tuple nodes nd hwfn method _ heqt
            refine ⟨hinv.1, ?_, ?_⟩
            · intro hne
              rw [hnm]
              exact hinv.2.2.2 hne rfl nd hget
            · rw [hnm]
              exact (hinv.2.2.1 nd hget).trans hinv.2.1
          · refine ⟨fun st2 pc2 hr => ?_,
                    fun ht st2 hr => (by rw [← h] at hr; cases hr),
                    fun st2 hr => (by rw [← h] at hr; cases hr)⟩
            rw [← h] at hr
            cases hr
            exact ⟨hinv.1, hinv.2.1, hinv.2.2.1, fun _ hcon => by cases hcon⟩
        · split at h
          · refine ⟨fun st2 pc2 hr => ?_,
                    fun ht st2 hr => (by rw [← h] at hr; cases hr),
                    fun st2 hr => (by rw [← h] at hr; cases hr)⟩
            rw [← h] at hr
            cases hr
            exact ⟨hinv.1, hinv.2.1, hinv.2.2.1, fun _ hcon => by cases hcon⟩
          · split at h
            · exact ⟨fun st2 pc2 hr => (by rw [← h] at hr; cases hr),
                     fun ht st2 hr => (by rw [← h] at hr; cases hr),
                     fun st2 hr => (by rw [← h] at hr; cases hr)⟩
            · refine ⟨fun st2 pc2 hr => ?_,
                      fun ht st2 hr => (by rw [← h] at hr; cases hr),
                      fun st2 hr => (by rw [← h] at hr; cases hr)⟩
              rw [← h] at hr
              cases hr
              exact ⟨hinv.1, hinv.2.1, hinv.2.2.1, fun _ hcon => by cases hcon⟩
            · rename_i j heqb
              refine ⟨fun st2 pc2 hr => ?_,
                      fun ht st2 hr => (by rw [← h] at hr; cases hr),
                      fun st2 hr => (by rw [← h] at hr; cases hr)⟩
              rw [← h] at hr
              cases hr
              refine ⟨hinv.1, hinv.2.1, ?_, ?_⟩
              · intro c hc
                have hst := wfAt_static nodes nd hwfn _ j c heqb hc
                have hwfc := wfC6B_at nodes hwf j c hc
                have hpm := wfAt_pfxmark nodes c hwfc
                rw [if_pos hst.1] at hpm
                have hk : countMarkers c.key = countMarkers nd.key := by
                  rw [hst.2, countMarkers_append, hpm]
                  omega
                rw [hk]
                exact hinv.2.2.1 nd hget
              · intro hne _ c hc
                have hst := wfAt_static nodes nd hwfn _ j c heqb hc
                have hwfc := wfC6B_at nodes hwf j c hc
                have hpm := wfAt_pfxmark nodes c hwfc
                rw [if_pos hst.1] at hpm
                have hk : countMarkers c.key = countMarkers nd.key := by
                  rw [hst.2, countMarkers_append, hpm]
                  omega
                rw [hk]
                exact hinv.2.2.2 hne rfl nd hget
  | tryVar =>
    simp only [mstep] at h
    cases hget : getNode nodes st.cn with
    | none =>
      rw [hget] at h
      exact ⟨fun st2 pc2 hr => (by rw [← h] at hr; cases hr),
             fun ht st2 hr => (by rw [← h] at hr; cases hr),
             fun st2 hr => (by rw [← h] at hr; cases hr)⟩
    | some nd =>
      rw [hget] at h
      dsimp only at h
      have hwfn := wfC6B_at nodes hwf st.cn nd hget
      split at h
      · refine ⟨fun st2 pc2 hr => ?_,
                fun ht st2 hr => (by rw [← h] at hr; cases hr),
                fun st2 hr => (by rw [← h] at hr; cases hr)⟩
        rw [← h] at hr
        cases hr
        exact ⟨hinv.1, hinv.2.1, hinv.2.2.1, fun _ hcon => by cases hcon⟩
      · rename_i j heqj
        split at h
        · refine ⟨fun st2 pc2 hr => ?_,
                  fun ht st2 hr => (by rw [← h] at hr; cases hr),
                  fun st2 hr => (by rw [← h] at hr; cases hr)⟩
          rw [← h] at hr
          cases hr
          refine ⟨⟨by simp, ?_⟩, Nat.succ_le_succ hinv.2.1, ?_, ?_⟩
          · rw [if_neg (Nat.succ_ne_zero _)]
            exact acquire_step st.pvvs st.captures st.acquires hinv.1.1 hinv.1.2
          · intro c hc
            have hvc := wfAt_var nodes nd hwfn j c heqj hc
            have hwfc := wfC6B_at nodes hwf j c hc
            have hpm := wfAt_pfxmark nodes c hwfc
            have htne : ¬ c.typ = NType.nonvar := by rw [hvc.1]; decide
            rw [if_neg htne] at hpm
            have hk : countMarkers c.key = countMarkers nd.key + 1 := by
              rw [hvc.2, countMarkers_append, hpm]
            rw [hk]
            exact Nat.succ_le_succ (hinv.2.2.1 nd hget)
          · intro _ _ c hc
            have hvc := wfAt_var nodes nd hwfn j c heqj hc
            have hwfc := wfC6B_at nodes hwf j c hc
            have hpm := wfAt_pfxmark nodes c hwfc
            have htne : ¬ c.typ = NType.nonvar := by rw [hvc.1]; decide
            rw [if_neg htne] at hpm
            have hk : countMarkers c.key = countMarkers nd.key + 1 := by
              rw [hvc.2, countMarkers_append, hpm]
            rw [hk]
            exact Nat.le_add_left 1 _
        · exact ⟨fun st2 pc2 hr => (by rw [← h] at hr; cases hr),
                 fun ht st2 hr => (by rw [← h] at hr; cases hr),
                 fun st2 hr => (by rw [← h] at hr; cases hr)⟩
  | tryWildcard =>
    simp only [mstep] at h
    cases hget : getNode nodes st.cn with
    | none =>
      rw [hget] at h
      exact ⟨fun st2 pc2 hr => (by rw [← h] at hr; cases hr),
             fun ht st2 hr => (by rw [← h] at hr; cases hr),
             fun st2 hr => (by rw [← h] at hr; cases hr)⟩
    | some nd =>
      rw [hget] at h
      dsimp only at h
      have hwfn := wfC6B_at nodes hwf st.cn nd hget
      split at h
      · refine ⟨fun st2 pc2 hr => ?_,
                fun ht st2 hr => (by rw [← h] at hr; cases hr),
                fun st2 hr => (by rw [← h] at hr; cases hr)⟩
        rw [← h] at hr
        cases hr
        exact ⟨hinv.1, hinv.2.1, hinv.2.2.1, fun _ hcon => by cases hcon⟩
      · rename_i j heqj
        split at h
        · split at h
          · exact ⟨fun st2 pc2 hr => (by rw [← h] at hr; cases hr),
                   fun ht st2 hr => (by rw [← h] at hr; cases hr),
                   fun st2 hr => (by rw [← h] at hr; cases hr)⟩
          · rename_i wnd hgj
            split at h
            · rename_i heqt
              refine ⟨fun st2 pc2 hr => (by rw [← h] at hr; cases hr),
                      fun ht2 st2 hr => ?_,
                      fun st2 hr => (by rw [← h] at hr; cases hr)⟩
              rw [← h] at hr
              cases hr
              have hwfw := wfC6B_at nodes hwf j wnd hgj
              have hnm := wfAt_tuple nodes wnd hwfw method _ heqt
              have hwc := wfAt_wild nodes nd hwfn j wnd heqj hgj
              have hpm := wfAt_pfxmark nodes wnd hwfw
              have htne : ¬ wnd.typ = NType.nonvar := by rw [hwc.1]; decide
              rw [if_neg htne] at hpm
              have hk : countMarkers wnd.key = countMarkers nd.key + 1 := by
                rw [hwc.2, countMarkers_append, hpm]
              refine ⟨⟨by simp, ?_⟩, ?_, ?_⟩
              · rw [if_neg (Nat.succ_ne_zero _)]
                exact acquire_step st.pvvs st.captures st.acquires hinv.1.1 hinv.1.2
              · intro _
                rw [hnm, hk]
                exact Nat.le_add_left 1 _
              · rw [hnm, hk]
                exact Nat.succ_le_succ ((hinv.2.2.1 nd hget).trans hinv.2.1)
            · refine ⟨fun st2 pc2 hr => ?_,
                      fun ht st2 hr => (by rw [← h] at hr; cases hr),
                      fun st2 hr => (by rw [← h] at hr; cases hr)⟩
              rw [← h] at hr
              cases hr
              have hwfw := wfC6B_at nodes hwf j wnd hgj
              have hwc := wfAt_wild nodes nd hwfn j wnd heqj hgj
              have hpm := wfAt_pfxmark nodes wnd hwfw
              have htne : ¬ wnd.typ = NType.nonvar := by rw [hwc.1]; decide
              rw [if_neg htne] at hpm
              have hk : countMarkers wnd.key = countMarkers nd.key + 1 := by
                rw [hwc.2, countMarkers_append, hpm]
              refine ⟨⟨by simp, ?_⟩, Nat.succ_le_succ hinv.2.1, ?_,
                      fun _ hcon => by cases hcon⟩
              · rw [if_neg (Nat.succ_ne_zero _)]
                exact acquire_step st.pvvs st.captures st.acquires hinv.1.1 hinv.1.2
              · intro c hc
                rw [hgj] at hc
                cases hc
                rw [hk]
                exact Nat.succ_le_succ (hinv.2.2.1 nd hget)
        · exact ⟨fun st2 pc2 hr => (by rw [← h] at hr; cases hr),
                 fun ht st2 hr => (by rw [← h] at hr; cases hr),
                 fun st2 hr => (by rw [← h] at hr; cases hr)⟩
  | backtrack fnt =>
    simp only [mstep] at h
    cases hget : getNode nodes st.cn with
    | none =>
      rw [hget] at h
      exact ⟨fun st2 pc2 hr => (by rw [← h] at hr; cases hr),
             fun ht st2 hr => (by rw [← h] at hr; cases hr),
             fun st2 hr => (by rw [← h] at hr; cases hr)⟩
    | some nd =>
      rw [hget] at h
      dsimp only at h
      have hwfn := wfC6B_at nodes hwf st.cn nd hget
      split at h
      · exact ⟨fun st2 pc2 hr => (by rw [← h] at hr; cases hr),
               fun ht st2 hr => (by rw [← h] at hr; cases hr),
               fun st2 hr => (by rw [← h] at hr; cases hr)⟩
      · rename_i si2 pvi2 heq
        have hfacts : pvi2 ≤ st.pvi ∧
            ∀ L : Str, nd.key = L ++ nd.pfx → countMarkers L ≤ pvi2 := by
          have hpm := wfAt_pfxmark nodes nd hwfn
          split at heq
          · split at heq
            · rename_i htyp
              split at heq
              · cases heq
                refine ⟨le_refl _, ?_⟩
                intro L hL
                rw [if_pos htyp] at hpm
                have hk : countMarkers nd.key = countMarkers L := by
                  rw [hL, countMarkers_append, hpm]
                  omega
                rw [← hk]
                exact hinv.2.2.1 nd hget
              · cases heq
            · rename_i htyp
              split at heq
              · rename_i pvi3 buf hpat
                split at heq
                · rename_i v hv
                  split at heq
                  · cases heq
                    rw [if_neg htyp] at hpm
                    have h4 := hinv.2.2.1 nd hget
                    refine ⟨?_, ?_⟩
                    · omega
                    · intro L hL
                      rw [hL, countMarkers_append, hpm] at h4
                      omega
                  · cases heq
                · cases heq
              · cases heq
          · cases heq
            have h4 := hinv.2.2.1 nd hget
            refine ⟨le_refl _, ?_⟩
            intro L hL
            rw [hL, countMarkers_append] at h4
            omega
        split at h
        · rename_i p hpar
          split at h
          · refine ⟨fun st2 pc2 hr => ?_,
                    fun ht st2 hr => (by rw [← h] at hr; cases hr),
                    fun st2 hr => (by rw [← h] at hr; cases hr)⟩
            rw [← h] at hr
            cases hr
            refine ⟨hinv.1, hfacts.1.trans hinv.2.1, ?_, fun _ hcon => by cases hcon⟩
            intro pn hgp
            exact hfacts.2 pn.key (wfAt_parent nodes nd hwfn p pn hpar hgp)
          · refine ⟨fun st2 pc2 hr => ?_,
                    fun ht st2 hr => (by rw [← h] at hr; cases hr),
                    fun st2 hr => (by rw [← h] at hr; cases hr)⟩
            rw [← h] at hr
            cases hr
            refine ⟨hinv.1, hfacts.1.trans hinv.2.1, ?_, fun _ hcon => by cases hcon⟩
            intro pn hgp
            exact hfacts.2 pn.key (wfAt_parent nodes nd hwfn p pn hpar hgp)
          · refine ⟨fun st2 pc2 hr => (by rw [← h] at hr; cases hr),
                    fun ht st2 hr => (by rw [← h] at hr; cases hr),
                    fun st2 hr => ?_⟩
            rw [← h] at hr
            cases hr
            exact hinv.1
        · refine ⟨fun st2 pc2 hr => (by rw [← h] at hr; cases hr),
                  fun ht st2 hr => (by rw [← h] at hr; cases hr),
                  fun st2 hr => ?_⟩
          rw [← h] at hr
          cases hr
          exact hinv.1

/-- Over any number of steps, a run from an invariant state keeps the
core pool accounting at a failing exit, and at a successful exit also
ties the resolved tuple's name count to the buffer state. -/
theorem c6_run (nodes : List Node) (path method : Str) (maxPV : Nat)
    (hwf : wfC6B nodes = true) :
    ∀ (fuel : Nat) (st : MSt) (pc : PC), C6Inv nodes st pc →
      (∀ st2, mrun nodes path method maxPV fuel st pc = .failure st2 →
        CoreInv st2) ∧
      (∀ ht st2, mrun nodes path method maxPV fuel st pc = .success ht st2 →
        CoreInv st2 ∧ (st2.pvvs ≠ none → 1 ≤ ht.pathVarNames.length) ∧
        ht.pathVarNames.length ≤ st2.captures) := by
  intro fuel
  induction fuel with
  | zero =>
    intro st pc hinv
    constructor
    · intro st2 h
      rw [mrun] at h
      cases h
    · intro ht st2 h
      rw [mrun] at h
      cases h
  | succ fuel ih =>
    intro st pc hinv
    constructor
    · intro st2 h
      rw [mrun] at h
      cases hstep : mstep nodes path method maxPV st pc with
      | next st3 pc3 =>
        rw [hstep] at h
        exact (ih st3 pc3
          ((c6_step_all nodes path method maxPV st pc _ hwf hinv hstep).1
            st3 pc3 rfl)).1 st2 h
      | success ht st3 => rw [hstep] at h; cases h
      | failure st3 =>
        rw [hstep] at h
        cases h
        exact (c6_step_all nodes path method maxPV st pc _ hwf hinv hstep).2.2
          st2 rfl
      | panicked => rw [hstep] at h; cases h
    · intro ht st2 h
      rw [mrun] at h
      cases hstep : mstep nodes path method maxPV st pc with
      | next st3 pc3 =>
        rw [hstep] at h
        exact (ih st3 pc3
          ((c6_step_all nodes path method maxPV st pc _ hwf hinv hstep).1
            st3 pc3 rfl)).2 ht st2 h
      | success ht3 st3 =>
        rw [hstep] at h
        cases h
        exact (c6_step_all nodes path method maxPV st pc _ hwf hinv hstep).2.1
          ht st2 rfl
      | failure st3 => rw [hstep] at h; cases h
      | panicked => rw [hstep] at h; cases h

/-- C6: on every exit path the match either captured no variable and
performed no pool acquire and no release, or captured at least one and
performed exactly one acquire and exactly one release, provided the
tree satisfies the key/type well-formedness that Handle-built trees
have. -/
theorem c6_capturing_search_acquires_and_releases_once :
    ∀ (mux : Mux) (t : Tree) (path : Str) (r : Request) (fuel : Nat)
      (res : MatchResult),
      wfC6B t.nodes = true →
      matchT mux t path r fuel = .ok res →
      (res.captures = 0 → res.acquires = 0 ∧ res.releases = 0) ∧
      (1 ≤ res.captures → res.acquires = 1 ∧ res.releases = 1) := by
  intro mux t path r fuel res hwf heq
  unfold matchT at heq
  dsimp only at heq
  have hinit : C6Inv t.nodes
      { si := 0, cn := 0, sn := none, pvi := 0, pvvs := none, captures := 0,
        acquires := 0, visited := [0], saveEligible := [] } .top := by
    refine ⟨⟨by simp, by simp⟩, le_refl 0, ?_, ?_⟩
    · intro nd hget
      exact le_of_eq (wfC6B_root t.nodes hwf nd hget)
    · intro hne _ nd hget
      exact absurd rfl hne
  have hrunlem := c6_run t.nodes path r.method mux.maxPathVars hwf fuel _ .top hinit
  cases hrun : mrun t.nodes path r.method mux.maxPathVars fuel
      { si := 0, cn := 0, sn := none, pvi := 0, pvvs := none, captures := 0,
        acquires := 0, visited := [0], saveEligible := [] } PC.top with
  | fuelOut => rw [hrun] at heq; cases heq
  | panicked => rw [hrun] at heq; cases heq
  | failure st =>
    rw [hrun] at heq
    dsimp only at heq
    cases heq
    have hcore := hrunlem.1 st hrun
    dsimp only
    constructor
    · intro hc0
      refine ⟨?_, ?_⟩
      · rw [hcore.2, if_pos hc0]
      · simp [hcore.1.mpr hc0]
    · intro hc1
      have hne : st.captures ≠ 0 := by omega
      refine ⟨?_, ?_⟩
      · rw [hcore.2, if_neg hne]
      · have hpv : st.pvvs ≠ none := fun hn => hne (hcore.1.mp hn)
        cases hx : st.pvvs with
        | none => exact absurd hx hpv
        | some b => rfl
  | success ht st =>
    rw [hrun] at heq
    dsimp only at heq
    have hsucc := hrunlem.2 ht st hrun
    by_cases hn : ht.pathVarNames.length > 0
    · rw [if_pos hn] at heq
      split at heq
      · cases heq
      · cases heq
        dsimp only
        constructor
        · intro hc0
          exfalso
          have hle := hsucc.2.2
          omega
        · intro hc1
          refine ⟨?_, rfl⟩
          rw [hsucc.1.2, if_neg (by omega)]
    · rw [if_neg hn] at heq
      cases heq
      dsimp only
      constructor
      · intro hc0
        exact ⟨by rw [hsucc.1.2, if_pos hc0], rfl⟩
      · intro hc1
        exfalso
        have hne : st.captures ≠ 0 := by omega
        have hpv : st.pvvs ≠ none := fun hnn => hne (hsucc.1.1.mp hnn)
        have := hsucc.2.1 hpv
        omega

/-- A store-less request for /a/zz used to exercise the pool claim. -/
def reqC6 : Request :=
  { method := bGET, host := [], urlPath := bytesOf "/a/zz",
    rawQuery := [], store := none }

/-- The match result of GET /a/zz against the /a/x-variable tree. -/
def resC6 : MatchResult :=
  match matchT muxVarXv treeVarX (bytesOf "/a/zz") reqC6 200 with
  | .ok r => r
  | _ => { res := .notFound, store := none, captures := 0, acquires := 0,
           releases := 0, visited := [], saveEligible := [], snFinal := none }

/-- C6 witness: the Handle-built tree for the pattern with one variable
is well-formed, the capturing match GET /a/zz returns normally, and the
accounting conclusion holds there; the run indeed captured once. -/
theorem c6_witness :
    ((resC6.captures = 0 → resC6.acquires = 0 ∧ resC6.releases = 0) ∧
     (1 ≤ resC6.captures → resC6.acquires = 1 ∧ resC6.releases = 1)) ∧
    resC6.captures = 1 ∧ resC6.acquires = 1 ∧ resC6.releases = 1 :=
  ⟨c6_capturing_search_acquires_and_releases_once muxVarXv treeVarX
      (bytesOf "/a/zz") reqC6 200 resC6 (by decide) (by decide),
   by decide, by decide, by decide⟩

end Servemux
